import Mathlib

/-!
# opl3d: MIDI-to-OPL3 bridge daemon

A shallow embedding of `src/opl3d/files/opl3d.c`.

The daemon reads bytes from a MIDI device and turns two message shapes into
hardware accesses:

* `0b10010DBR 0b0RRRRRRR 0b0DDDDDDD` is a store into the memory-mapped OPL3
  register window (`parseMsg`, `writeOplReg`);
* `0b11000000 0b0VVVVVVV` is a volume change sent to the SSM2603 codec over
  I2C (`setAudioVolume`, `setAudioReg`).

Everything the program does to the outside world is recorded as an `Event`,
in program order.  The inputs besides the MIDI bytes are the result of each
`write(2)` on the I2C file (`bus k = true` says that the `k`-th such call,
counted from 0, returns 2; anything else makes `setAudioReg` call `exit(1)`)
and, for `initAudio`, whether `open` and `ioctl` on the I2C device succeed.

C integers are natural numbers; a narrowing conversion to `unsigned char` or
`unsigned short` is an explicit `% 256` or `% 65536`.
-/

namespace Opl3d

/-! ## Observable effects -/

/-- Side effects of the daemon, in the order the program performs them.  A call
of `log` or `err` is recorded whether or not the log file could be opened. -/
inductive Event where
  /-- The call `log("Dropping MIDI message with status %02x", msg[0])`. -/
  | logDropMsg (status : Nat)
  /-- The call `log("Dropping MIDI data byte %02x", c)`. -/
  | logDropByte (c : Nat)
  /-- The call `log("Setting volume to %i dB", volume - 121)`. -/
  | logVolume (dB : Int)
  /-- The store `opl3[reg] = data` into the register window. -/
  | oplStore (reg : Nat) (data : Nat)
  /-- The call `write(file, buf, 2)` with `buf = {buf0, buf1}`. -/
  | i2cWrite (buf0 : Nat) (buf1 : Nat)
  /-- The call `err("I2C failed")`. -/
  | errI2C
  /-- The call `nanosleep(&t, NULL)` with `t = {0, 0}` made by `delay`. -/
  | nanosleep
  /-- The call `usleep(us)`. -/
  | usleep (us : Nat)
  /-- The call `err("Failed to open /dev/i2c-0")`. -/
  | errOpenI2C
  /-- The call `err("ioctl failed")`. -/
  | errIoctl
  /-- The call `log("MIDI device EOF")`. -/
  | logEof
  deriving DecidableEq, Repr

/-- The locals `msg[3]` and `msgSize` of `main`, together with the number of
`write(2)` calls issued so far on the I2C file (which selects the next answer
of the bus). -/
structure Proc where
  msg0 : Nat
  msg1 : Nat
  msg2 : Nat
  msgSize : Nat
  i2cCalls : Nat
  deriving DecidableEq, Repr

/-- How a piece of the program ends: control goes on with a new state, the
process has called `exit(code)`, or a store fell outside `msg[3]`. -/
inductive Outcome where
  | cont (p : Proc)
  | exit (code : Nat)
  | fault
  deriving DecidableEq, Repr

/-- Source: `static void writeOplReg(int reg, int data) { opl3[reg] = data; }`;
`opl3` points to `unsigned char`, so the stored value is `data % 256`. -/
def writeOplReg (reg data : Nat) : List Event :=
  [Event.oplStore reg (data % 256)]

/-- Source: `static void parseMsg(unsigned char b1, unsigned char b2, unsigned char b3)`:
`reg = ((b1 & 3) << 7) | b2`, `data = ((b1 & 4) << 5) | b3`, then
`writeOplReg(reg, data)`. -/
def parseMsg (b1 b2 b3 : Nat) : List Event :=
  let b1 := b1 % 256
  let b2 := b2 % 256
  let b3 := b3 % 256
  let reg := ((b1 &&& 3) <<< 7) ||| b2
  let data := ((b1 &&& 4) <<< 5) ||| b3
  writeOplReg reg data

/-- Source: `static inline void delay()`: one `nanosleep` of zero length. -/
def delay : List Event := [Event.nanosleep]

/-! ## The codec -/

/-- Source: `static void setAudioReg(int file, unsigned char reg, unsigned short data)`:
builds the two-byte frame, writes it, and on a short write logs and exits with
status 1. -/
def setAudioReg (bus : Nat → Bool) (p : Proc) (reg data : Nat) : List Event × Outcome :=
  let reg := reg % 256
  let data := data % 65536
  let buf0 := ((reg <<< 1) ||| ((data >>> 8) &&& 1)) % 256
  let buf1 := data &&& 0xff
  if bus p.i2cCalls then
    ([Event.i2cWrite buf0 buf1], Outcome.cont { p with i2cCalls := p.i2cCalls + 1 })
  else
    ([Event.i2cWrite buf0 buf1, Event.errI2C], Outcome.exit 1)

/-- Source: `static void setAudioVolume(unsigned char volume)`: logs the level and
writes `(1 << 8) | volume` to codec register 2. -/
def setAudioVolume (bus : Nat → Bool) (p : Proc) (volume : Nat) : List Event × Outcome :=
  let volume := volume % 256
  let r := setAudioReg bus p 2 ((1 <<< 8) ||| volume)
  (Event.logVolume ((volume : Int) - 121) :: r.1, r.2)

/-! ## The decode loop of `main` -/

/-- The store `msg[msgSize++] = c`; `none` when the index is outside `msg[3]`. -/
def Proc.append (p : Proc) (c : Nat) : Option Proc :=
  match p.msgSize with
  | 0 => some { p with msg0 := c, msgSize := 1 }
  | 1 => some { p with msg1 := c, msgSize := 2 }
  | 2 => some { p with msg2 := c, msgSize := 3 }
  | _ => none

/-- Body of the `for` loop of `main` for one byte `c = buf[i]`. -/
def decodeByte (bus : Nat → Bool) (p : Proc) (c : Nat) : List Event × Outcome :=
  -- if (c & 0x80) { if (msgSize > 0) log(...); msgSize = 0; }
  let ev : List Event :=
    if c &&& 0x80 ≠ 0 ∧ p.msgSize > 0 then [Event.logDropMsg p.msg0] else []
  let p1 : Proc := if c &&& 0x80 ≠ 0 then { p with msgSize := 0 } else p
  -- if (msgSize == 3) { log(...); continue; }
  if p1.msgSize = 3 then
    (ev ++ [Event.logDropByte c], Outcome.cont p1)
  else
    -- msg[msgSize++] = c;
    match p1.append c with
    | none => (ev, Outcome.fault)
    | some p2 =>
      if (p2.msg0 &&& 0xf8) = 0x90 ∧ p2.msgSize = 3 then
        (ev ++ parseMsg p2.msg0 (p2.msg1 &&& 0x7f) (p2.msg2 &&& 0x7f) ++ delay,
          Outcome.cont { p2 with msgSize := 0 })
      else if p2.msg0 = 0xc0 ∧ p2.msgSize = 2 then
        match setAudioVolume bus p2 (p2.msg1 &&& 0x7f) with
        | (ev2, Outcome.cont p3) => (ev ++ ev2, Outcome.cont { p3 with msgSize := 0 })
        | (ev2, o) => (ev ++ ev2, o)
      else
        (ev, Outcome.cont p2)

/-- The `for (i = 0; i < count; ++i)` loop of `main` over one chunk `buf[0..count)`.
It stops early only when the process has exited or faulted. -/
def decodeLoop (bus : Nat → Bool) : Proc → List Nat → List Event × Outcome
  | p, [] => ([], Outcome.cont p)
  | p, c :: cs =>
    match decodeByte bus p c with
    | (ev, Outcome.cont p1) =>
      let r := decodeLoop bus p1 cs
      (ev ++ r.1, r.2)
    | (ev, o) => (ev, o)

/-- Runs a piece of the program from an outcome: a process that has exited or
faulted does nothing more. -/
def Outcome.andThen (o : Outcome) (f : Proc → List Event × Outcome) : List Event × Outcome :=
  match o with
  | Outcome.cont p => f p
  | o => ([], o)

/-- The `while (run)` loop of `main` over the successive results of
`read(fd, buf, sizeof(buf))`, each given as the bytes it returned.  A read that
returns 0 bytes is end of file: `log("MIDI device EOF")` and `break`, so the
reads after it never happen.  Otherwise the `for` loop runs over the chunk; the
locals `msg` and `msgSize` are declared outside the loop, so the state is
carried from one chunk to the next.  The list stops where the observation
stops; a failing `read` and `SIGTERM`, which also end the loop, are not part of
it. -/
def decodeChunks (bus : Nat → Bool) : Proc → List (List Nat) → List Event × Outcome
  | p, [] => ([], Outcome.cont p)
  | p, buf :: rest =>
    if buf.length = 0 then
      ([Event.logEof], Outcome.cont p)
    else
      let r := decodeLoop bus p buf
      let r2 := r.2.andThen (fun p1 => decodeChunks bus p1 rest)
      (r.1 ++ r2.1, r2.2)

/-- The state of `main` when the read loop starts: `msgSize = 0`, `msg`
uninitialised (any contents), and `n` I2C writes already issued. -/
def Proc.empty (m0 m1 m2 n : Nat) : Proc :=
  { msg0 := m0, msg1 := m1, msg2 := m2, msgSize := 0, i2cCalls := n }

/-! ## Codec initialisation -/

/-- Sequencing of two pieces of the program: the events of the first, then the
second run from the state the first continues with (nothing more if the first
has stopped the process). -/
def seq (r : List Event × Outcome) (f : Proc → List Event × Outcome) : List Event × Outcome :=
  (r.1 ++ (r.2.andThen f).1, (r.2.andThen f).2)

/-- A block of statements run one after the other. -/
def runSteps : List (Proc → List Event × Outcome) → Proc → List Event × Outcome
  | [], p => ([], Outcome.cont p)
  | f :: fs, p => seq (f p) (runSteps fs)

/-- Source: `static void initAudio()`.  `openOk` says that
`open("/dev/i2c-0", O_RDWR)` returned a descriptor, `ioctlOk` that
`ioctl(ssm2603, I2C_SLAVE, IIC_SLAVE_ADDR)` did not fail; either failure logs and
exits with status 1.  The reset write to register 15 is commented out in the
source, so the first statement after the checks is `usleep(75000)`. -/
def initAudio (openOk ioctlOk : Bool) (bus : Nat → Bool) (p : Proc) : List Event × Outcome :=
  if openOk = false then ([Event.errOpenI2C], Outcome.exit 1)
  else if ioctlOk = false then ([Event.errIoctl], Outcome.exit 1)
  else
    runSteps
      [ fun q => ([Event.usleep 75000], Outcome.cont q),
        fun q => setAudioReg bus q 6 0b000110000,
        fun q => setAudioReg bus q 0 0b000010111,
        fun q => setAudioReg bus q 1 0b000010111,
        fun q => setAudioVolume bus q 0b001111001,
        fun q => setAudioReg bus q 4 0b000010000,
        fun q => setAudioReg bus q 5 0b000000000,
        fun q => setAudioReg bus q 7 0b000001010,
        fun q => setAudioReg bus q 8 0b000000000,
        fun q => ([Event.usleep 75000], Outcome.cont q),
        fun q => setAudioReg bus q 9 0b000000001,
        fun q => setAudioReg bus q 6 0b000100000 ] p

/-- The codec and register-window activity of `main`: `initAudio()`, then the
read loop over the chunks delivered by `read`, entered with `msgSize = 0`, `msg`
uninitialised and no codec write issued before `initAudio`.  The statements in
between (opening `/dev/mem`, `mmap`, opening the MIDI device) touch neither the
codec nor the register window and are left out. -/
def initThenDecode (openOk ioctlOk : Bool) (bus : Nat → Bool) (m0 m1 m2 : Nat)
    (chunks : List (List Nat)) : List Event × Outcome :=
  seq (initAudio openOk ioctlOk bus (Proc.empty m0 m1 m2 0))
    (fun p => decodeChunks bus p chunks)

/-- The two bytes `setAudioReg` sends for a register and a data word, as it
computes them: `buf[0] = (reg << 1) | ((data >> 8) & 1)`, `buf[1] = data & 0xff`,
with `reg` an `unsigned char` and `data` an `unsigned short`. -/
def codecFrame (reg data : Nat) : Nat × Nat :=
  ((((reg % 256) <<< 1) ||| (((data % 65536) >>> 8) &&& 1)) % 256, (data % 65536) &&& 0xff)

/-- Reading of a frame by the codec: the register is the upper seven bits of
the first byte, the data word is its low bit followed by the second byte. -/
def frameDecode (buf0 buf1 : Nat) : Nat × Nat :=
  (buf0 >>> 1, ((buf0 &&& 1) <<< 8) ||| buf1)

/-- The frames written to the codec, in order, each read back as a
(register, data) pair. -/
def codecWrites : List Event → List (Nat × Nat)
  | [] => []
  | Event.i2cWrite buf0 buf1 :: rest => frameDecode buf0 buf1 :: codecWrites rest
  | _ :: rest => codecWrites rest

/-- Codec frames. -/
def Event.isCodecWrite : Event → Bool
  | Event.i2cWrite _ _ => true
  | _ => false

/-- The `usleep` pauses. -/
def Event.isPause : Event → Bool
  | Event.usleep _ => true
  | _ => false

/-- The 'dropped data byte' diagnostic of the overflow branch. -/
def Event.isDropByte : Event → Bool
  | Event.logDropByte _ => true
  | _ => false

/-- The index used by `msg[msgSize++] = c` when the byte `c` is processed in
state `p`: `msgSize` after the status-byte reset, or `none` when the byte is
dropped by the `msgSize == 3` test and no store is executed. -/
def appendIndex (p : Proc) (c : Nat) : Option Nat :=
  let sz := if c &&& 0x80 ≠ 0 then 0 else p.msgSize
  if sz = 3 then none else some sz

/-- Fail-stop discipline of a run entered after `n` codec writes: a frame the
bus accepts is followed by the rest of the run, a frame the bus refuses is
followed by the error log line only and the process exits with status 1; a run
that continues has counted its writes. -/
def FailStop (bus : Nat → Bool) : Nat → List Event → Outcome → Prop
  | n, [], o => ∀ p, o = Outcome.cont p → p.i2cCalls = n
  | n, Event.i2cWrite _ _ :: rest, o =>
    if bus n then FailStop bus (n + 1) rest o
    else rest = [Event.errI2C] ∧ o = Outcome.exit 1
  | n, _ :: rest, o => FailStop bus n rest o

/-! ## Well-formed messages (the wire format of the header comment) -/

/-- The two message shapes of the header comment of `opl3d.c`. -/
inductive Message where
  /-- Three bytes `0b10010DBR 0b0RRRRRRR 0b0DDDDDDD`. -/
  | regWrite (s d1 d2 : Nat)
  /-- Two bytes `0b11000000 0b0VVVVVVV`. -/
  | volume (v : Nat)
  deriving DecidableEq, Repr

/-- The bytes of a message on the wire. -/
def Message.bytes : Message → List Nat
  | Message.regWrite s d1 d2 => [s, d1, d2]
  | Message.volume v => [0xc0, v]

/-- A message is well formed when its status byte is `0x90..0x97` (or `0xC0`)
and its data bytes have the high bit clear. -/
def Message.WellFormed : Message → Prop
  | Message.regWrite s d1 d2 => 0x90 ≤ s ∧ s ≤ 0x97 ∧ d1 < 0x80 ∧ d2 < 0x80
  | Message.volume v => v < 0x80

instance (m : Message) : Decidable m.WellFormed := by
  cases m <;> unfold Message.WellFormed <;> infer_instance

/-- The hardware access a well-formed message stands for: a store of
`((s&4)<<5)|d2` at `((s&3)<<7)|d1` in the register window, or the codec frame
`{0x05, v}` (register 2, value `(1<<8)|v`). -/
def Message.operation : Message → Event
  | Message.regWrite s d1 d2 =>
    Event.oplStore (((s &&& 3) <<< 7) ||| d1) (((s &&& 4) <<< 5) ||| d2)
  | Message.volume v => Event.i2cWrite 0x05 v

/-- Everything the daemon is expected to do for one well-formed message when
the codec accepts the write: the store followed by the pacing `nanosleep`, or
the volume log line followed by the codec frame. -/
def Message.events : Message → List Event
  | Message.regWrite s d1 d2 => [Message.operation (Message.regWrite s d1 d2), Event.nanosleep]
  | Message.volume v => [Event.logVolume ((v : Int) - 121), Message.operation (Message.volume v)]

/-- Hardware accesses: stores into the register window and codec frames. -/
def Event.isOperation : Event → Bool
  | Event.oplStore _ _ => true
  | Event.i2cWrite _ _ => true
  | _ => false

/-- The two drop diagnostics of the decode loop. -/
def Event.isDrop : Event → Bool
  | Event.logDropMsg _ => true
  | Event.logDropByte _ => true
  | _ => false

/-- A byte with the high bit set, as tested by `c & 0x80`. -/
def isStatus (c : Nat) : Bool := c &&& 0x80 != 0

/-- The events performed for the byte `c` when it is read right after the bytes
`pre`, the loop having started in state `p`: nothing if the process has already
stopped. -/
def eventsFor (bus : Nat → Bool) (p : Proc) (pre : List Nat) (c : Nat) : List Event :=
  ((decodeLoop bus p pre).2.andThen (fun q => decodeByte bus q c)).1

/-- Whether the state holds a started message whose first byte is a status byte:
1 if so, 0 otherwise. -/
def Proc.pending (p : Proc) : Nat :=
  if p.msgSize > 0 ∧ p.msg0 &&& 0x80 ≠ 0 then 1 else 0

/-- The pending count of the state an outcome continues with, 0 for a stopped
process. -/
def Outcome.pending : Outcome → Nat
  | Outcome.cont p => p.pending
  | _ => 0

/-- What the bytes read so far say about the buffer: with one byte stored it is
the last byte read, with two bytes stored they are the last two bytes read and
the second has its high bit clear. -/
def BufferTracksInput (pre : List Nat) (q : Proc) : Prop :=
  q.msgSize ≤ 3 ∧
  (q.msgSize = 1 → ∃ pre', pre = pre' ++ [q.msg0]) ∧
  (q.msgSize = 2 → ∃ pre', pre = pre' ++ [q.msg0, q.msg1] ∧ q.msg1 &&& 0x80 = 0)

/-- Two states that the rest of the run cannot tell apart: same `msgSize`, same
position on the I2C bus, and the same bytes in the filled part of `msg` that can
still be read. -/
def Proc.agree (p q : Proc) : Prop :=
  p.msgSize = q.msgSize ∧ p.i2cCalls = q.i2cCalls ∧
    (1 ≤ p.msgSize → p.msg0 = q.msg0) ∧ (p.msgSize = 2 → p.msg1 = q.msg1)

/-- Outcomes that agree: both running from agreeing states, or both stopped the
same way. -/
def Outcome.agree : Outcome → Outcome → Prop
  | Outcome.cont p, Outcome.cont q => p.agree q
  | Outcome.exit a, Outcome.exit b => a = b
  | Outcome.fault, Outcome.fault => True
  | _, _ => False

/-- The bound kept by the loop: at most three bytes are buffered, and three
bytes stay buffered only behind a first byte that does not pass the test
`(msg[0] & 0xf8) == 0x90`. -/
def BufferBound (q : Proc) : Prop :=
  q.msgSize ≤ 3 ∧ (q.msgSize = 3 → (q.msg0 &&& 0xf8) ≠ 0x90)

/-! ## Bit-level facts -/

theorem and_0x80_of_lt {d : Nat} (h : d < 0x80) : d &&& 0x80 = 0 := by
  have h2 := Nat.and_two_pow d 7
  simp [Nat.testBit_lt_two_pow (show d < 2 ^ 7 from h)] at h2
  exact h2

theorem and_0x7f_of_lt {d : Nat} (h : d < 0x80) : d &&& 0x7f = d := by
  have h2 := Nat.and_pow_two_sub_one_eq_mod d 7
  simp at h2
  rw [h2]
  omega

theorem not_regWrite_status_of_data {c : Nat} (h : c &&& 0x80 = 0) :
    (c &&& 0xf8) ≠ 0x90 ∧ c ≠ 0xc0 := by
  constructor
  · intro h2
    have h3 : (c &&& 0xf8) &&& 0x80 = c &&& 0x80 := by
      rw [Nat.and_assoc]; rfl
    rw [h2, h] at h3
    exact absurd h3 (by decide)
  · rintro rfl
    exact absurd h (by decide)

set_option maxRecDepth 100000 in
theorem byte_facts : ∀ c < 256,
    (c &&& 0x80 = 0 ↔ c < 0x80) ∧ ((c &&& 0xf8) = 0x90 ↔ 0x90 ≤ c ∧ c ≤ 0x97) := by
  decide

theorem status_facts {s : Nat} (h1 : 0x90 ≤ s) (h2 : s ≤ 0x97) :
    s &&& 0x80 ≠ 0 ∧ (s &&& 0xf8) = 0x90 ∧ s ≠ 0xc0 ∧ s % 256 = s := by
  have hb := byte_facts s (by omega)
  refine ⟨?_, hb.2.2 ⟨h1, h2⟩, by omega, by omega⟩
  intro h
  have := hb.1.1 h
  omega

theorem regValue_lt (s d : Nat) (hd : d < 0x80) : (((s &&& 4) <<< 5) ||| d) < 256 := by
  have h4 : s &&& 4 ≤ 4 := Nat.and_le_right
  have h5 : (s &&& 4) <<< 5 < 2 ^ 8 := by
    rw [Nat.shiftLeft_eq]; omega
  exact Nat.or_lt_two_pow h5 (by omega)

/-! ## One step of the decode loop, case by case -/

theorem decodeByte_status (bus : Nat → Bool) (p : Proc) (c : Nat) (hc : c &&& 0x80 ≠ 0) :
    decodeByte bus p c =
      ((if p.msgSize > 0 then [Event.logDropMsg p.msg0] else []),
        Outcome.cont { p with msg0 := c, msgSize := 1 }) := by
  by_cases h : p.msgSize > 0 <;>
    simp [decodeByte, hc, h, Proc.append, not_regWrite_status_of_data]

theorem decodeByte_data0 (bus : Nat → Bool) (p : Proc) (c : Nat) (hc : c &&& 0x80 = 0)
    (h : p.msgSize = 0) :
    decodeByte bus p c = ([], Outcome.cont { p with msg0 := c, msgSize := 1 }) := by
  simp [decodeByte, hc, h, Proc.append]

set_option maxRecDepth 100000 in
theorem volume_frame : ∀ v < 0x80,
    (((2 % 256) <<< 1) ||| (((((1 <<< 8) ||| (v % 256)) % 65536) >>> 8) &&& 1)) % 256 = 0x05 ∧
      (((1 <<< 8) ||| (v % 256)) % 65536) &&& 0xff = v := by
  decide

theorem setAudioVolume_of_lt (bus : Nat → Bool) (p : Proc) (v : Nat) (hv : v < 0x80) :
    setAudioVolume bus p v =
      (Event.logVolume ((v : Int) - 121) :: Event.i2cWrite 0x05 v ::
          (if bus p.i2cCalls then [] else [Event.errI2C]),
        if bus p.i2cCalls then Outcome.cont { p with i2cCalls := p.i2cCalls + 1 }
        else Outcome.exit 1) := by
  have hf := volume_frame v hv
  have hm : v % 256 = v := by omega
  rw [hm] at hf
  unfold setAudioVolume setAudioReg
  simp only [hm, hf.1, hf.2]
  by_cases hb : bus p.i2cCalls <;> simp [hb]

theorem and_0x7f_lt (c : Nat) : c &&& 0x7f < 0x80 :=
  Nat.lt_succ_of_le Nat.and_le_right

theorem decodeByte_data1 (bus : Nat → Bool) (p : Proc) (c : Nat) (hc : c &&& 0x80 = 0)
    (h : p.msgSize = 1) :
    decodeByte bus p c =
      if p.msg0 = 0xc0 then
        (Event.logVolume (((c &&& 0x7f : Nat) : Int) - 121) ::
            Event.i2cWrite 0x05 (c &&& 0x7f) ::
            (if bus p.i2cCalls then [] else [Event.errI2C]),
          if bus p.i2cCalls then
            Outcome.cont { p with msg1 := c, msgSize := 0, i2cCalls := p.i2cCalls + 1 }
          else Outcome.exit 1)
      else ([], Outcome.cont { p with msg1 := c, msgSize := 2 }) := by
  obtain ⟨m0, m1, m2, sz, n⟩ := p
  dsimp only at h ⊢
  subst h
  by_cases h0 : m0 = 0xc0
  · subst h0
    have hv := setAudioVolume_of_lt bus ⟨0xc0, c, m2, 2, n⟩ (c &&& 0x7f) (and_0x7f_lt c)
    dsimp only at hv
    by_cases hb : bus n <;>
      simp [decodeByte, hc, Proc.append, hv, hb]
  · simp [decodeByte, hc, Proc.append, h0]

theorem decodeByte_data2 (bus : Nat → Bool) (p : Proc) (c : Nat) (hc : c &&& 0x80 = 0)
    (h : p.msgSize = 2) :
    decodeByte bus p c =
      if (p.msg0 &&& 0xf8) = 0x90 then
        (parseMsg p.msg0 (p.msg1 &&& 0x7f) (c &&& 0x7f) ++ delay,
          Outcome.cont { p with msg2 := c, msgSize := 0 })
      else ([], Outcome.cont { p with msg2 := c, msgSize := 3 }) := by
  by_cases h0 : (p.msg0 &&& 0xf8) = 0x90
  · simp [decodeByte, hc, h, Proc.append, h0]
  · simp [decodeByte, hc, h, Proc.append, h0]

theorem decodeByte_data3 (bus : Nat → Bool) (p : Proc) (c : Nat) (hc : c &&& 0x80 = 0)
    (h : p.msgSize = 3) :
    decodeByte bus p c = ([Event.logDropByte c], Outcome.cont p) := by
  simp [decodeByte, hc, h]

theorem decodeByte_data_fault (bus : Nat → Bool) (p : Proc) (c : Nat) (hc : c &&& 0x80 = 0)
    (h : 3 < p.msgSize) :
    decodeByte bus p c = ([], Outcome.fault) := by
  have h3 : p.msgSize ≠ 3 := by omega
  have ha : p.append c = none := by
    unfold Proc.append
    split <;> first | omega | rfl
  simp [decodeByte, hc, h3, ha]

/-! ## The loop over a chunk -/

theorem decodeLoop_nil (bus : Nat → Bool) (p : Proc) :
    decodeLoop bus p [] = ([], Outcome.cont p) := rfl

theorem decodeLoop_cons_cont (bus : Nat → Bool) (p p1 : Proc) (c : Nat) (cs : List Nat)
    (ev : List Event) (h : decodeByte bus p c = (ev, Outcome.cont p1)) :
    decodeLoop bus p (c :: cs) = (ev ++ (decodeLoop bus p1 cs).1, (decodeLoop bus p1 cs).2) := by
  simp [decodeLoop, h]

theorem decodeLoop_cons_exit (bus : Nat → Bool) (p : Proc) (c : Nat) (cs : List Nat)
    (ev : List Event) (code : Nat) (h : decodeByte bus p c = (ev, Outcome.exit code)) :
    decodeLoop bus p (c :: cs) = (ev, Outcome.exit code) := by
  simp [decodeLoop, h]

theorem decodeLoop_cons_fault (bus : Nat → Bool) (p : Proc) (c : Nat) (cs : List Nat)
    (ev : List Event) (h : decodeByte bus p c = (ev, Outcome.fault)) :
    decodeLoop bus p (c :: cs) = (ev, Outcome.fault) := by
  simp [decodeLoop, h]

theorem parseMsg_masked (s b1 b2 : Nat) (hs : s < 256) :
    parseMsg s (b1 &&& 0x7f) (b2 &&& 0x7f) =
      [Event.oplStore (((s &&& 3) <<< 7) ||| (b1 &&& 0x7f))
        (((s &&& 4) <<< 5) ||| (b2 &&& 0x7f))] := by
  have h1 := and_0x7f_lt b1
  have h2 := and_0x7f_lt b2
  have hv := regValue_lt s (b2 &&& 0x7f) h2
  simp only [parseMsg, writeOplReg, Nat.mod_eq_of_lt hs,
    Nat.mod_eq_of_lt (show b1 &&& 0x7f < 256 by omega),
    Nat.mod_eq_of_lt (show b2 &&& 0x7f < 256 by omega), Nat.mod_eq_of_lt hv]

/-- A well-formed register-write message, read from a state with `msgSize = 0`,
is turned into one store and one pacing delay, and leaves `msgSize = 0`. -/
theorem decodeLoop_regWrite (bus : Nat → Bool) (p : Proc) (hp : p.msgSize = 0)
    (s d1 d2 : Nat) (h1 : 0x90 ≤ s) (h2 : s ≤ 0x97) (hd1 : d1 < 0x80) (hd2 : d2 < 0x80)
    (rest : List Nat) :
    decodeLoop bus p ([s, d1, d2] ++ rest) =
      (Message.events (Message.regWrite s d1 d2) ++
          (decodeLoop bus { p with msg0 := s, msg1 := d1, msg2 := d2 } rest).1,
        (decodeLoop bus { p with msg0 := s, msg1 := d1, msg2 := d2 } rest).2) := by
  obtain ⟨hs80, hsf8, hsc0, -⟩ := status_facts h1 h2
  have e1 := decodeByte_status bus p s hs80
  have e2 := decodeByte_data1 bus { p with msg0 := s, msgSize := 1 } d1
    (and_0x80_of_lt hd1) rfl
  have e3 := decodeByte_data2 bus { p with msg0 := s, msg1 := d1, msgSize := 2 } d2
    (and_0x80_of_lt hd2) rfl
  simp only [hp, gt_iff_lt, lt_irrefl, if_false] at e1
  simp only [hsc0, if_false] at e2
  simp only [hsf8, if_true] at e3
  rw [parseMsg_masked s d1 d2 (by omega), and_0x7f_of_lt hd1, and_0x7f_of_lt hd2] at e3
  have hp0 : ({ p with msg0 := s, msg1 := d1, msg2 := d2, msgSize := 0 } : Proc) =
      { p with msg0 := s, msg1 := d1, msg2 := d2 } := by
    cases p; simp_all
  rw [hp0] at e3
  show decodeLoop bus p (s :: d1 :: d2 :: rest) = _
  rw [decodeLoop_cons_cont bus _ _ s _ _ e1, decodeLoop_cons_cont bus _ _ d1 _ _ e2,
    decodeLoop_cons_cont bus _ _ d2 _ _ e3]
  simp [Message.events, Message.operation, delay]

/-- A well-formed volume message, read from a state with `msgSize = 0` while the
codec accepts the write, is turned into one log line and one codec frame, and
leaves `msgSize = 0`. -/
theorem decodeLoop_volume (bus : Nat → Bool) (p : Proc) (hp : p.msgSize = 0)
    (hb : bus p.i2cCalls = true) (v : Nat) (hv : v < 0x80) (rest : List Nat) :
    decodeLoop bus p ([0xc0, v] ++ rest) =
      (Message.events (Message.volume v) ++
          (decodeLoop bus { p with msg0 := 0xc0, msg1 := v, i2cCalls := p.i2cCalls + 1 } rest).1,
        (decodeLoop bus { p with msg0 := 0xc0, msg1 := v, i2cCalls := p.i2cCalls + 1 } rest).2) := by
  have e1 := decodeByte_status bus p 0xc0 (by decide)
  have e2 := decodeByte_data1 bus { p with msg0 := 0xc0, msgSize := 1 } v
    (and_0x80_of_lt hv) rfl
  simp only [hp, gt_iff_lt, lt_irrefl, if_false] at e1
  simp only [hb, if_true, and_0x7f_of_lt hv] at e2
  have hp0 : ({ p with msg0 := 0xc0, msg1 := v, msgSize := 0, i2cCalls := p.i2cCalls + 1 } : Proc) =
      { p with msg0 := 0xc0, msg1 := v, i2cCalls := p.i2cCalls + 1 } := by
    cases p; simp_all
  rw [hp0] at e2
  show decodeLoop bus p (0xc0 :: v :: rest) = _
  rw [decodeLoop_cons_cont bus _ _ 0xc0 _ _ e1, decodeLoop_cons_cont bus _ _ v _ _ e2]
  simp [Message.events, Message.operation]

theorem events_filter_isOperation (ms : List Message) :
    (ms.flatMap Message.events).filter Event.isOperation = ms.map Message.operation := by
  induction ms with
  | nil => rfl
  | cons m ms ih =>
    rw [List.flatMap_cons, List.filter_append, ih]
    cases m <;> simp [Message.events, Message.operation, Event.isOperation]

theorem events_filter_isDrop (ms : List Message) :
    (ms.flatMap Message.events).filter Event.isDrop = [] := by
  induction ms with
  | nil => rfl
  | cons m ms ih =>
    rw [List.flatMap_cons, List.filter_append, ih]
    cases m <;> simp [Message.events, Message.operation, Event.isDrop]

theorem decodeLoop_messages (bus : Nat → Bool) (ms : List Message)
    (hwf : ∀ m ∈ ms, m.WellFormed) (p : Proc) (hp : p.msgSize = 0)
    (hbus : ∀ k, p.i2cCalls ≤ k → bus k = true) :
    ∃ q : Proc, q.msgSize = 0 ∧
      decodeLoop bus p (ms.flatMap Message.bytes) =
        (ms.flatMap Message.events, Outcome.cont q) := by
  induction ms generalizing p with
  | nil => exact ⟨p, hp, rfl⟩
  | cons m ms ih =>
    have hm : m.WellFormed := hwf m (List.mem_cons_self _ _)
    have hrest : ∀ m' ∈ ms, m'.WellFormed := fun m' h => hwf m' (List.mem_cons_of_mem _ h)
    rw [List.flatMap_cons, List.flatMap_cons]
    cases m with
    | regWrite s d1 d2 =>
      obtain ⟨h1, h2, hd1, hd2⟩ := hm
      obtain ⟨q, hq, e⟩ := ih hrest { p with msg0 := s, msg1 := d1, msg2 := d2 } hp hbus
      refine ⟨q, hq, ?_⟩
      show decodeLoop bus p ([s, d1, d2] ++ _) = _
      rw [decodeLoop_regWrite bus p hp s d1 d2 h1 h2 hd1 hd2, e]
    | volume v =>
      obtain ⟨q, hq, e⟩ :=
        ih hrest { p with msg0 := 0xc0, msg1 := v, i2cCalls := p.i2cCalls + 1 } hp
          (fun k hk => hbus k (Nat.le_of_succ_le hk))
      refine ⟨q, hq, ?_⟩
      show decodeLoop bus p ([0xc0, v] ++ _) = _
      rw [decodeLoop_volume bus p hp (hbus _ (Nat.le_refl _)) v hm, e]

theorem decodeLoop_singleton (bus : Nat → Bool) (p : Proc) (c : Nat) :
    decodeLoop bus p [c] = decodeByte bus p c := by
  unfold decodeLoop
  rcases h : decodeByte bus p c with ⟨ev, o⟩
  cases o <;> simp [decodeLoop]

/-- The loop over `xs ++ ys` is the loop over `xs` followed, when the process
is still running, by the loop over `ys` from the state reached. -/
theorem decodeLoop_append (bus : Nat → Bool) (p : Proc) (xs ys : List Nat) :
    decodeLoop bus p (xs ++ ys) =
      ((decodeLoop bus p xs).1 ++
          ((decodeLoop bus p xs).2.andThen (fun q => decodeLoop bus q ys)).1,
        ((decodeLoop bus p xs).2.andThen (fun q => decodeLoop bus q ys)).2) := by
  induction xs generalizing p with
  | nil => simp [decodeLoop, Outcome.andThen]
  | cons c cs ih =>
    rcases h : decodeByte bus p c with ⟨ev, o⟩
    cases o with
    | cont p1 =>
      rw [List.cons_append, decodeLoop_cons_cont bus p p1 c _ ev h,
        decodeLoop_cons_cont bus p p1 c _ ev h, ih p1]
      simp
    | exit code =>
      rw [List.cons_append, decodeLoop_cons_exit bus p c _ ev code h,
        decodeLoop_cons_exit bus p c _ ev code h]
      simp [Outcome.andThen]
    | fault =>
      rw [List.cons_append, decodeLoop_cons_fault bus p c _ ev h,
        decodeLoop_cons_fault bus p c _ ev h]
      simp [Outcome.andThen]

theorem decodeChunks_eof (bus : Nat → Bool) (p : Proc) (rest : List (List Nat)) :
    decodeChunks bus p ([] :: rest) = ([Event.logEof], Outcome.cont p) := by
  simp [decodeChunks]

theorem decodeChunks_cons (bus : Nat → Bool) (p : Proc) (buf : List Nat)
    (rest : List (List Nat)) (hbuf : buf ≠ []) :
    decodeChunks bus p (buf :: rest) =
      seq (decodeLoop bus p buf) (fun p1 => decodeChunks bus p1 rest) := by
  have hlen : buf.length ≠ 0 := fun h => hbuf (List.length_eq_zero.mp h)
  simp [decodeChunks, hlen, seq]

/-- Any way of cutting the input into non-empty chunks gives the events and the
outcome of the `for` loop over all the bytes. -/
theorem decodeChunks_eq_flatten (bus : Nat → Bool) (p : Proc) (chunks : List (List Nat))
    (hne : ∀ buf ∈ chunks, buf ≠ []) :
    decodeChunks bus p chunks = decodeLoop bus p chunks.flatten := by
  induction chunks generalizing p with
  | nil => rfl
  | cons buf rest ih =>
    rw [List.flatten_cons, decodeLoop_append,
      decodeChunks_cons bus p buf rest (hne buf (List.mem_cons_self _ _))]
    have hfun : (fun p1 => decodeChunks bus p1 rest) = (fun q => decodeLoop bus q rest.flatten) :=
      funext (fun q => ih q (fun b hb => hne b (List.mem_cons_of_mem _ hb)))
    simp only [hfun, seq]

theorem decodeLoop_snoc_events (bus : Nat → Bool) (p : Proc) (pre : List Nat) (c : Nat) :
    (decodeLoop bus p (pre ++ [c])).1 = (decodeLoop bus p pre).1 ++ eventsFor bus p pre c := by
  rw [decodeLoop_append]
  unfold eventsFor
  cases (decodeLoop bus p pre).2 <;> simp [Outcome.andThen, decodeLoop_singleton]

theorem decodeLoop_snoc_running (bus : Nat → Bool) (p q : Proc) (pre : List Nat) (c : Nat)
    (h : (decodeLoop bus p (pre ++ [c])).2 = Outcome.cont q) :
    ∃ q0, (decodeLoop bus p pre).2 = Outcome.cont q0 ∧ (decodeByte bus q0 c).2 = Outcome.cont q := by
  rw [decodeLoop_append] at h
  cases h0 : (decodeLoop bus p pre).2 with
  | cont q0 =>
    rw [h0] at h
    exact ⟨q0, rfl, by simpa [Outcome.andThen, decodeLoop_singleton] using h⟩
  | exit code => rw [h0] at h; simp [Outcome.andThen] at h
  | fault => rw [h0] at h; simp [Outcome.andThen] at h

theorem bufferTracksInput_step (bus : Nat → Bool) (pre : List Nat) (q0 q : Proc) (c : Nat)
    (hinv : BufferTracksInput pre q0) (hstep : (decodeByte bus q0 c).2 = Outcome.cont q) :
    BufferTracksInput (pre ++ [c]) q := by
  obtain ⟨hle, h1, h2⟩ := hinv
  by_cases hc : c &&& 0x80 = 0
  · have hcases : q0.msgSize = 0 ∨ q0.msgSize = 1 ∨ q0.msgSize = 2 ∨ q0.msgSize = 3 := by omega
    rcases hcases with h | h | h | h
    · rw [decodeByte_data0 bus q0 c hc h] at hstep
      injection hstep with hq
      subst hq
      exact ⟨by simp, fun _ => ⟨pre, rfl⟩, fun h' => by simp at h'⟩
    · rw [decodeByte_data1 bus q0 c hc h] at hstep
      obtain ⟨pre', hpre⟩ := h1 h
      by_cases h0 : q0.msg0 = 0xc0
      · by_cases hb : bus q0.i2cCalls
        · simp only [h0, hb, if_true] at hstep
          injection hstep with hq
          subst hq
          exact ⟨by simp, fun h' => by simp at h', fun h' => by simp at h'⟩
        · simp [h0, hb] at hstep
      · simp only [h0, if_false] at hstep
        injection hstep with hq
        subst hq
        refine ⟨by simp, fun h' => by simp at h', fun _ => ⟨pre', ?_, hc⟩⟩
        simp [hpre]
    · rw [decodeByte_data2 bus q0 c hc h] at hstep
      by_cases h0 : (q0.msg0 &&& 0xf8) = 0x90
      · simp only [h0, if_true] at hstep
        injection hstep with hq
        subst hq
        exact ⟨by simp, fun h' => by simp at h', fun h' => by simp at h'⟩
      · simp only [h0, if_false] at hstep
        injection hstep with hq
        subst hq
        exact ⟨by simp, fun h' => by simp at h', fun h' => by simp at h'⟩
    · rw [decodeByte_data3 bus q0 c hc h] at hstep
      injection hstep with hq
      subst hq
      exact ⟨hle, fun h' => by omega, fun h' => by omega⟩
  · rw [decodeByte_status bus q0 c hc] at hstep
    injection hstep with hq
    subst hq
    exact ⟨by simp, fun _ => ⟨pre, rfl⟩, fun h' => by simp at h'⟩

/-- Started with `msgSize = 0`, the loop keeps the buffer in step with the
input. -/
theorem bufferTracksInput_of_run (bus : Nat → Bool) (p : Proc) (hp : p.msgSize = 0)
    (pre : List Nat) (q : Proc) (h : (decodeLoop bus p pre).2 = Outcome.cont q) :
    BufferTracksInput pre q := by
  induction pre using List.reverseRecOn generalizing q with
  | nil =>
    simp [decodeLoop] at h
    subst h
    exact ⟨by omega, fun h' => by omega, fun h' => by omega⟩
  | append_singleton pre c ih =>
    obtain ⟨q0, hq0, hstep⟩ := decodeLoop_snoc_running bus p q pre c h
    exact bufferTracksInput_step bus pre q0 q c (ih q0 hq0) hstep

/-- A store performed for a byte is the completion of a three-byte run held in
the buffer. -/
theorem oplStore_origin (bus : Nat → Bool) (q : Proc) (c a v : Nat)
    (hsz : q.msgSize ≤ 3) (hmem : Event.oplStore a v ∈ (decodeByte bus q c).1) :
    c &&& 0x80 = 0 ∧ q.msgSize = 2 ∧ (q.msg0 &&& 0xf8) = 0x90 ∧
      Event.oplStore a v ∈ parseMsg q.msg0 (q.msg1 &&& 0x7f) (c &&& 0x7f) := by
  by_cases hc : c &&& 0x80 = 0
  · have hcases : q.msgSize = 0 ∨ q.msgSize = 1 ∨ q.msgSize = 2 ∨ q.msgSize = 3 := by omega
    rcases hcases with h | h | h | h
    · simp [decodeByte_data0 bus q c hc h] at hmem
    · rw [decodeByte_data1 bus q c hc h] at hmem
      by_cases h0 : q.msg0 = 0xc0 <;> by_cases hb : bus q.i2cCalls <;> simp [h0, hb] at hmem
    · rw [decodeByte_data2 bus q c hc h] at hmem
      by_cases h0 : (q.msg0 &&& 0xf8) = 0x90
      · simp only [h0, if_true, delay, List.mem_append, List.mem_singleton] at hmem
        rcases hmem with hm | hm
        · exact ⟨hc, h, h0, hm⟩
        · cases hm
      · simp [h0] at hmem
    · simp [decodeByte_data3 bus q c hc h] at hmem
  · rw [decodeByte_status bus q c hc] at hmem
    by_cases h : q.msgSize > 0 <;> simp [h] at hmem

/-- A codec frame sent for a byte is the completion of a two-byte run held in
the buffer. -/
theorem i2cWrite_origin (bus : Nat → Bool) (q : Proc) (c b0 b1 : Nat)
    (hsz : q.msgSize ≤ 3) (hmem : Event.i2cWrite b0 b1 ∈ (decodeByte bus q c).1) :
    c &&& 0x80 = 0 ∧ q.msgSize = 1 ∧ q.msg0 = 0xc0 ∧ b0 = 0x05 ∧ b1 = c &&& 0x7f := by
  by_cases hc : c &&& 0x80 = 0
  · have hcases : q.msgSize = 0 ∨ q.msgSize = 1 ∨ q.msgSize = 2 ∨ q.msgSize = 3 := by omega
    rcases hcases with h | h | h | h
    · simp [decodeByte_data0 bus q c hc h] at hmem
    · rw [decodeByte_data1 bus q c hc h] at hmem
      by_cases h0 : q.msg0 = 0xc0
      · by_cases hb : bus q.i2cCalls <;> simp [h0, hb] at hmem <;>
          exact ⟨hc, h, h0, hmem.1, hmem.2⟩
      · simp [h0] at hmem
    · rw [decodeByte_data2 bus q c hc h] at hmem
      by_cases h0 : (q.msg0 &&& 0xf8) = 0x90
      · simp [h0, delay, parseMsg, writeOplReg] at hmem
      · simp [h0] at hmem
    · simp [decodeByte_data3 bus q c hc h] at hmem
  · rw [decodeByte_status bus q c hc] at hmem
    by_cases h : q.msgSize > 0 <;> simp [h] at hmem

/-- One byte performs at most one hardware access, and only by completing a
message whose first byte is a status byte. -/
theorem decodeByte_operation_count (bus : Nat → Bool) (p : Proc) (c : Nat) :
    ((decodeByte bus p c).1.filter Event.isOperation).length + (decodeByte bus p c).2.pending ≤
      (if isStatus c then 1 else 0) + p.pending := by
  by_cases hc : c &&& 0x80 = 0
  · have hst : isStatus c = false := by simp [isStatus, hc]
    rw [hst]
    have hcases : p.msgSize = 0 ∨ p.msgSize = 1 ∨ p.msgSize = 2 ∨ p.msgSize = 3 ∨
        3 < p.msgSize := by omega
    rcases hcases with h | h | h | h | h
    · rw [decodeByte_data0 bus p c hc h]
      simp [Outcome.pending, Proc.pending, hc]
    · rw [decodeByte_data1 bus p c hc h]
      by_cases h0 : p.msg0 = 0xc0
      · by_cases hb : bus p.i2cCalls <;>
          simp [h0, hb, Outcome.pending, Proc.pending, Event.isOperation, h]
      · simp [h0, Outcome.pending, Proc.pending, h]
    · rw [decodeByte_data2 bus p c hc h]
      by_cases h0 : (p.msg0 &&& 0xf8) = 0x90
      · have h80 : p.msg0 &&& 0x80 ≠ 0 := fun h' => (not_regWrite_status_of_data h').1 h0
        simp [h0, Outcome.pending, Proc.pending, Event.isOperation, h, h80, parseMsg,
          writeOplReg, delay]
      · simp [h0, Outcome.pending, Proc.pending, h]
    · rw [decodeByte_data3 bus p c hc h]
      simp [Outcome.pending, Event.isOperation]
    · rw [decodeByte_data_fault bus p c hc h]
      simp [Outcome.pending]
  · have hst : isStatus c = true := by simp [isStatus, hc]
    rw [hst, decodeByte_status bus p c hc]
    by_cases h : p.msgSize > 0 <;>
      simp [h, Outcome.pending, Proc.pending, Event.isOperation, hc]

theorem decodeLoop_operation_count (bus : Nat → Bool) (p : Proc) (xs : List Nat) :
    ((decodeLoop bus p xs).1.filter Event.isOperation).length + (decodeLoop bus p xs).2.pending ≤
      (xs.filter isStatus).length + p.pending := by
  induction xs generalizing p with
  | nil => simp [decodeLoop, Outcome.pending]
  | cons c cs ih =>
    have hstep := decodeByte_operation_count bus p c
    rcases h : decodeByte bus p c with ⟨ev, o⟩
    rw [h] at hstep
    have hlen : ((c :: cs).filter isStatus).length =
        (if isStatus c then 1 else 0) + (cs.filter isStatus).length := by
      by_cases hs : isStatus c <;> simp [List.filter_cons, hs, Nat.add_comm]
    cases o with
    | cont p1 =>
      rw [decodeLoop_cons_cont bus p p1 c cs ev h]
      have := ih p1
      simp only [Outcome.pending] at hstep
      simp only [List.filter_append, List.length_append]
      omega
    | exit code =>
      rw [decodeLoop_cons_exit bus p c cs ev code h]
      simp only [Outcome.pending] at hstep ⊢
      omega
    | fault =>
      rw [decodeLoop_cons_fault bus p c cs ev h]
      simp only [Outcome.pending] at hstep ⊢
      omega

/-- After a status byte that starts no known message, bytes with the high bit
clear perform no hardware access, whatever their number. -/
theorem decodeLoop_data_no_operation (bus : Nat → Bool) (ds : List Nat)
    (hds : ∀ d ∈ ds, d &&& 0x80 = 0) (p : Proc) (h1 : 1 ≤ p.msgSize) (h3 : p.msgSize ≤ 3)
    (hf8 : (p.msg0 &&& 0xf8) ≠ 0x90) (hc0 : p.msg0 ≠ 0xc0) :
    (decodeLoop bus p ds).1.filter Event.isOperation = [] := by
  induction ds generalizing p with
  | nil => rfl
  | cons d ds ih =>
    have hd : d &&& 0x80 = 0 := hds d (List.mem_cons_self _ _)
    have hrest : ∀ d' ∈ ds, d' &&& 0x80 = 0 := fun d' h => hds d' (List.mem_cons_of_mem _ h)
    have hcases : p.msgSize = 1 ∨ p.msgSize = 2 ∨ p.msgSize = 3 := by omega
    rcases hcases with h | h | h
    · have e := decodeByte_data1 bus p d hd h
      simp only [hc0, if_false] at e
      rw [decodeLoop_cons_cont bus p _ d ds _ e]
      simpa using ih hrest { p with msg1 := d, msgSize := 2 } (by simp) (by simp) hf8 hc0
    · have e := decodeByte_data2 bus p d hd h
      simp only [hf8, if_false] at e
      rw [decodeLoop_cons_cont bus p _ d ds _ e]
      simpa using ih hrest { p with msg2 := d, msgSize := 3 } (by simp) (by simp) hf8 hc0
    · have e := decodeByte_data3 bus p d hd h
      rw [decodeLoop_cons_cont bus p _ d ds _ e]
      simpa [Event.isOperation] using ih hrest p h1 h3 hf8 hc0

theorem decodeByte_operation_le_one (bus : Nat → Bool) (p : Proc) (c : Nat) :
    ((decodeByte bus p c).1.filter Event.isOperation).length ≤ 1 := by
  by_cases hc : c &&& 0x80 = 0
  · have h := decodeByte_operation_count bus p c
    have hst : isStatus c = false := by simp [isStatus, hc]
    have hp : p.pending ≤ 1 := by
      unfold Proc.pending
      split <;> omega
    rw [hst] at h
    simp only [Bool.false_eq_true, if_false] at h
    omega
  · rw [decodeByte_status bus p c hc]
    by_cases h : p.msgSize > 0 <;> simp [h, Event.isOperation]

theorem eventsFor_of_running (bus : Nat → Bool) (p q : Proc) (pre : List Nat) (c : Nat)
    (h : (decodeLoop bus p pre).2 = Outcome.cont q) :
    eventsFor bus p pre c = (decodeByte bus q c).1 := by
  simp [eventsFor, h, Outcome.andThen]

theorem eventsFor_of_stopped (bus : Nat → Bool) (p : Proc) (pre : List Nat) (c : Nat)
    (h : ∀ q, (decodeLoop bus p pre).2 ≠ Outcome.cont q) :
    eventsFor bus p pre c = [] := by
  unfold eventsFor
  cases h0 : (decodeLoop bus p pre).2 with
  | cont q => exact absurd h0 (h q)
  | exit code => rfl
  | fault => rfl

/-- The frame built by `setAudioReg` for register 2 and the value
`(1 << 8) | v` with `v < 0x80` is `{0x05, v}`. -/
theorem setAudioReg_volume (bus : Nat → Bool) (p : Proc) (v : Nat) (hv : v < 0x80) :
    (setAudioReg bus p 2 ((1 <<< 8) ||| v)).1 =
      Event.i2cWrite 0x05 v :: (if bus p.i2cCalls then [] else [Event.errI2C]) := by
  have hf := volume_frame v hv
  have hm : v % 256 = v := by omega
  rw [hm] at hf
  unfold setAudioReg
  simp only [hf.1, hf.2]
  by_cases hb : bus p.i2cCalls <;> simp [hb]

/-- Three bytes `b0, b1, b2` with `(b0 & 0xf8) == 0x90` and the high bit of
`b1`, `b2` clear, read from any state: the drop diagnostic of an unfinished
message if there is one, then one store and the pacing delay. -/
theorem decodeLoop_noteOn (bus : Nat → Bool) (p : Proc) (b0 b1 b2 : Nat) (h0 : b0 < 256)
    (hf8 : (b0 &&& 0xf8) = 0x90) (h1 : b1 &&& 0x80 = 0) (h2 : b2 &&& 0x80 = 0) :
    decodeLoop bus p [b0, b1, b2] =
      ((if p.msgSize > 0 then [Event.logDropMsg p.msg0] else []) ++
        [Event.oplStore (((b0 &&& 0x03) <<< 7) ||| (b1 &&& 0x7f))
            (((b0 &&& 0x04) <<< 5) ||| (b2 &&& 0x7f)), Event.nanosleep],
        Outcome.cont { p with msg0 := b0, msg1 := b1, msg2 := b2, msgSize := 0 }) := by
  have hr := (byte_facts b0 h0).2.1 hf8
  obtain ⟨hs80, -, hsc0, -⟩ := status_facts hr.1 hr.2
  have e1 := decodeByte_status bus p b0 hs80
  have e2 := decodeByte_data1 bus { p with msg0 := b0, msgSize := 1 } b1 h1 rfl
  have e3 := decodeByte_data2 bus { p with msg0 := b0, msg1 := b1, msgSize := 2 } b2 h2 rfl
  simp only [hsc0, if_false] at e2
  simp only [hf8, if_true] at e3
  rw [parseMsg_masked b0 b1 b2 h0] at e3
  rw [decodeLoop_cons_cont bus _ _ b0 _ _ e1, decodeLoop_cons_cont bus _ _ b1 _ _ e2,
    decodeLoop_cons_cont bus _ _ b2 _ _ e3]
  simp [decodeLoop, delay]

theorem decodeByte_agree (bus : Nat → Bool) (p q : Proc) (c : Nat) (h : p.agree q) :
    (decodeByte bus p c).1 = (decodeByte bus q c).1 ∧
      ((decodeByte bus p c).2).agree (decodeByte bus q c).2 := by
  obtain ⟨a0, a1, a2, sz, n⟩ := p
  obtain ⟨b0, b1, b2, sz', n'⟩ := q
  obtain ⟨hsz, hn, hm0, hm1⟩ := h
  dsimp only at hsz hn hm0 hm1
  subst hsz hn
  by_cases hc : c &&& 0x80 = 0
  · have hcases : sz = 0 ∨ sz = 1 ∨ sz = 2 ∨ sz = 3 ∨ 3 < sz := by omega
    rcases hcases with h | h | h | h | h
    · rw [decodeByte_data0 bus _ c hc h, decodeByte_data0 bus _ c hc h]
      exact ⟨rfl, by simp [Outcome.agree, Proc.agree]⟩
    · have e0 : a0 = b0 := hm0 (by omega)
      subst e0
      rw [decodeByte_data1 bus _ c hc h, decodeByte_data1 bus _ c hc h]
      by_cases h0 : a0 = 0xc0
      · by_cases hb : bus n <;> simp [h0, hb, Outcome.agree, Proc.agree]
      · simp [h0, Outcome.agree, Proc.agree]
    · have e0 : a0 = b0 := hm0 (by omega)
      have e1 : a1 = b1 := hm1 h
      subst e0 e1
      rw [decodeByte_data2 bus _ c hc h, decodeByte_data2 bus _ c hc h]
      by_cases h0 : (a0 &&& 0xf8) = 0x90
      · simp [h0, Outcome.agree, Proc.agree]
      · simp [h0, Outcome.agree, Proc.agree]
    · rw [decodeByte_data3 bus _ c hc h, decodeByte_data3 bus _ c hc h]
      exact ⟨rfl, rfl, rfl, hm0, hm1⟩
    · rw [decodeByte_data_fault bus _ c hc h, decodeByte_data_fault bus _ c hc h]
      exact ⟨rfl, trivial⟩
  · rw [decodeByte_status bus _ c hc, decodeByte_status bus _ c hc]
    refine ⟨?_, by simp [Outcome.agree, Proc.agree]⟩
    by_cases h : sz > 0
    · simp [h, hm0 h]
    · simp [h]

theorem decodeLoop_agree (bus : Nat → Bool) (cs : List Nat) (p q : Proc) (h : p.agree q) :
    (decodeLoop bus p cs).1 = (decodeLoop bus q cs).1 ∧
      ((decodeLoop bus p cs).2).agree (decodeLoop bus q cs).2 := by
  induction cs generalizing p q with
  | nil => exact ⟨rfl, h⟩
  | cons c cs ih =>
    obtain ⟨hev, hout⟩ := decodeByte_agree bus p q c h
    rcases hp : decodeByte bus p c with ⟨ev, o⟩
    rcases hq : decodeByte bus q c with ⟨ev', o'⟩
    rw [hp, hq] at hev hout
    simp only at hev
    subst hev
    cases o <;> cases o' <;> simp only [Outcome.agree] at hout
    · rename_i p1 q1
      rw [decodeLoop_cons_cont bus p p1 c cs ev hp, decodeLoop_cons_cont bus q q1 c cs ev hq]
      obtain ⟨h1, h2⟩ := ih p1 q1 hout
      exact ⟨by simp [h1], h2⟩
    · subst hout
      rw [decodeLoop_cons_exit bus p c cs ev _ hp, decodeLoop_cons_exit bus q c cs ev _ hq]
      exact ⟨rfl, rfl⟩
    · rw [decodeLoop_cons_fault bus p c cs ev hp, decodeLoop_cons_fault bus q c cs ev hq]
      exact ⟨rfl, trivial⟩

/-- In a state with `msgSize = 3`, bytes with the high bit clear are dropped one
by one and the state does not change. -/
theorem decodeLoop_full (bus : Nat → Bool) (ds : List Nat) (hds : ∀ d ∈ ds, d &&& 0x80 = 0)
    (p : Proc) (h : p.msgSize = 3) :
    decodeLoop bus p ds = (ds.map Event.logDropByte, Outcome.cont p) := by
  induction ds with
  | nil => rfl
  | cons d ds ih =>
    have e := decodeByte_data3 bus p d (hds d (List.mem_cons_self _ _)) h
    rw [decodeLoop_cons_cont bus p p d ds _ e,
      ih (fun d' h' => hds d' (List.mem_cons_of_mem _ h'))]
    rfl

/-- A byte with the high bit clear read with `msgSize = 0` is stored in
`msg[0]`; the bytes with the high bit clear that follow fill the buffer and,
from the fourth byte on, are dropped one by one. -/
theorem decodeLoop_stray_data (bus : Nat → Bool) (p : Proc) (c : Nat) (ds : List Nat)
    (hp : p.msgSize = 0) (hc : c &&& 0x80 = 0) (hds : ∀ d ∈ ds, d &&& 0x80 = 0) :
    decodeLoop bus p (c :: ds) =
      ((ds.drop 2).map Event.logDropByte,
        Outcome.cont { p with msg0 := c, msg1 := ds.getD 0 p.msg1, msg2 := ds.getD 1 p.msg2,
                              msgSize := min (ds.length + 1) 3 }) := by
  obtain ⟨hf8, hc0⟩ := not_regWrite_status_of_data hc
  have e1 := decodeByte_data0 bus p c hc hp
  rw [decodeLoop_cons_cont bus p _ c ds _ e1]
  match ds, hds with
  | [], _ => rfl
  | [d1], hds =>
    have e2 := decodeByte_data1 bus { p with msg0 := c, msgSize := 1 } d1
      (hds d1 (by simp)) rfl
    simp only [hc0, if_false] at e2
    rw [decodeLoop_singleton, e2]
    rfl
  | d1 :: d2 :: rest, hds =>
    have e2 := decodeByte_data1 bus { p with msg0 := c, msgSize := 1 } d1
      (hds d1 (by simp)) rfl
    have e3 := decodeByte_data2 bus { p with msg0 := c, msg1 := d1, msgSize := 2 } d2
      (hds d2 (by simp)) rfl
    simp only [hc0, if_false] at e2
    simp only [hf8, if_false] at e3
    rw [decodeLoop_cons_cont bus _ _ d1 _ _ e2, decodeLoop_cons_cont bus _ _ d2 _ _ e3,
      decodeLoop_full bus rest (fun d hd => hds d (by simp [hd])) _ rfl]
    have hmin : min (rest.length + 1 + 1 + 1) 3 = 3 := by omega
    simp [hmin]

/-! ## Codec frames and the initialisation sequence -/

theorem setAudioReg_events (bus : Nat → Bool) (p : Proc) (reg data : Nat) :
    setAudioReg bus p reg data =
      (Event.i2cWrite (codecFrame reg data).1 (codecFrame reg data).2 ::
          (if bus p.i2cCalls then [] else [Event.errI2C]),
        if bus p.i2cCalls then Outcome.cont { p with i2cCalls := p.i2cCalls + 1 }
        else Outcome.exit 1) := by
  by_cases hb : bus p.i2cCalls <;> simp [setAudioReg, codecFrame, hb]

/-- When the codec accepts the ten writes, `initAudio` performs this trace and
goes on with ten more writes counted. -/
theorem initAudio_accepted (bus : Nat → Bool) (p : Proc)
    (hbus : ∀ k, k < 10 → bus (p.i2cCalls + k) = true) :
    initAudio true true bus p =
      ([Event.usleep 75000, Event.i2cWrite 12 48, Event.i2cWrite 0 23, Event.i2cWrite 2 23,
        Event.logVolume 0, Event.i2cWrite 5 121, Event.i2cWrite 8 16, Event.i2cWrite 10 0,
        Event.i2cWrite 14 10, Event.i2cWrite 16 0, Event.usleep 75000, Event.i2cWrite 18 1,
        Event.i2cWrite 12 32],
        Outcome.cont { p with i2cCalls := p.i2cCalls + 10 }) := by
  obtain ⟨m0, m1, m2, sz, n⟩ := p
  have h0 := hbus 0 (by decide)
  have h1 := hbus 1 (by decide)
  have h2 := hbus 2 (by decide)
  have h3 := hbus 3 (by decide)
  have h4 := hbus 4 (by decide)
  have h5 := hbus 5 (by decide)
  have h6 := hbus 6 (by decide)
  have h7 := hbus 7 (by decide)
  have h8 := hbus 8 (by decide)
  have h9 := hbus 9 (by decide)
  simp only [Nat.add_zero] at h0 h1 h2 h3 h4 h5 h6 h7 h8 h9
  simp [initAudio, runSteps, seq, Outcome.andThen, setAudioReg, setAudioVolume, h0, h1, h2, h3,
    h4, h5, h6, h7, h8, h9, Nat.add_assoc]
  decide

/-! ## Fail-stop discipline -/

theorem FailStop_nil_cont (bus : Nat → Bool) (p : Proc) :
    FailStop bus p.i2cCalls [] (Outcome.cont p) := by
  intro q hq
  injection hq with hq
  rw [hq]

theorem FailStop_cons_other (bus : Nat → Bool) (n : Nat) (e : Event) (rest : List Event)
    (o : Outcome) (he : e.isCodecWrite = false) :
    FailStop bus n (e :: rest) o ↔ FailStop bus n rest o := by
  cases e <;> simp [FailStop, Event.isCodecWrite] at he ⊢

theorem FailStop_cons_write (bus : Nat → Bool) (n b0 b1 : Nat) (rest : List Event)
    (o : Outcome) :
    FailStop bus n (Event.i2cWrite b0 b1 :: rest) o ↔
      if bus n then FailStop bus (n + 1) rest o
      else rest = [Event.errI2C] ∧ o = Outcome.exit 1 := by
  simp [FailStop]

/-- A piece that continues, followed by a piece that keeps the discipline from
the state reached, keeps the discipline. -/
theorem FailStop_append (bus : Nat → Bool) (ev1 ev2 : List Event) (n : Nat) (p : Proc)
    (o : Outcome) (h1 : FailStop bus n ev1 (Outcome.cont p))
    (h2 : FailStop bus p.i2cCalls ev2 o) :
    FailStop bus n (ev1 ++ ev2) o := by
  induction ev1 generalizing n with
  | nil =>
    have hn : p.i2cCalls = n := h1 p rfl
    rw [List.nil_append, ← hn]
    exact h2
  | cons e rest ih =>
    rw [List.cons_append]
    by_cases he : e.isCodecWrite = true
    · cases e <;> simp [Event.isCodecWrite] at he
      rename_i b0 b1
      rw [FailStop_cons_write] at h1 ⊢
      by_cases hb : bus n
      · simp only [hb, if_true] at h1 ⊢
        exact ih (n + 1) h1
      · simp [hb] at h1
    · have he2 : e.isCodecWrite = false := by simpa using he
      rw [FailStop_cons_other bus n e _ _ he2] at h1 ⊢
      exact ih n h1

theorem FailStop_seq (bus : Nat → Bool) (n : Nat) (r : List Event × Outcome)
    (f : Proc → List Event × Outcome) (h1 : FailStop bus n r.1 r.2)
    (h2 : ∀ p, r.2 = Outcome.cont p → FailStop bus p.i2cCalls (f p).1 (f p).2) :
    FailStop bus n (seq r f).1 (seq r f).2 := by
  obtain ⟨ev, o⟩ := r
  cases o with
  | cont p =>
    simp only [seq, Outcome.andThen]
    exact FailStop_append bus ev _ n p _ h1 (h2 p rfl)
  | exit code => simpa [seq, Outcome.andThen] using h1
  | fault => simpa [seq, Outcome.andThen] using h1

theorem FailStop_setAudioReg (bus : Nat → Bool) (p : Proc) (reg data : Nat) :
    FailStop bus p.i2cCalls (setAudioReg bus p reg data).1 (setAudioReg bus p reg data).2 := by
  rw [setAudioReg_events, FailStop_cons_write]
  by_cases hb : bus p.i2cCalls
  · simp only [hb, if_true]
    exact FailStop_nil_cont bus { p with i2cCalls := p.i2cCalls + 1 }
  · simp [hb]

theorem FailStop_setAudioVolume (bus : Nat → Bool) (p : Proc) (volume : Nat) :
    FailStop bus p.i2cCalls (setAudioVolume bus p volume).1 (setAudioVolume bus p volume).2 := by
  unfold setAudioVolume
  exact (FailStop_cons_other bus _ (Event.logVolume _) _ _ rfl).mpr
    (FailStop_setAudioReg bus p 2 _)

theorem FailStop_pause (bus : Nat → Bool) (p : Proc) (us : Nat) :
    FailStop bus p.i2cCalls [Event.usleep us] (Outcome.cont p) := by
  exact (FailStop_cons_other bus _ (Event.usleep us) _ _ rfl).mpr (FailStop_nil_cont bus p)

theorem FailStop_runSteps (bus : Nat → Bool) (steps : List (Proc → List Event × Outcome))
    (hsteps : ∀ f ∈ steps, ∀ q, FailStop bus q.i2cCalls (f q).1 (f q).2) (p : Proc) :
    FailStop bus p.i2cCalls (runSteps steps p).1 (runSteps steps p).2 := by
  induction steps generalizing p with
  | nil => exact FailStop_nil_cont bus p
  | cons f fs ih =>
    unfold runSteps
    exact FailStop_seq bus _ _ _ (hsteps f (List.mem_cons_self _ _) p)
      (fun q _ => ih (fun g hg => hsteps g (List.mem_cons_of_mem _ hg)) q)

theorem FailStop_initAudio (openOk ioctlOk : Bool) (bus : Nat → Bool) (p : Proc) :
    FailStop bus p.i2cCalls (initAudio openOk ioctlOk bus p).1
      (initAudio openOk ioctlOk bus p).2 := by
  unfold initAudio
  cases openOk
  · show FailStop bus p.i2cCalls [Event.errOpenI2C] (Outcome.exit 1)
    exact (FailStop_cons_other bus _ Event.errOpenI2C _ _ rfl).mpr (fun q hq => by cases hq)
  · cases ioctlOk
    · show FailStop bus p.i2cCalls [Event.errIoctl] (Outcome.exit 1)
      exact (FailStop_cons_other bus _ Event.errIoctl _ _ rfl).mpr (fun q hq => by cases hq)
    · simp only [Bool.true_eq_false, if_false]
      apply FailStop_runSteps
      intro f hf q
      simp only [List.mem_cons, List.mem_singleton, List.not_mem_nil, or_false] at hf
      rcases hf with rfl | rfl | rfl | rfl | rfl | rfl | rfl | rfl | rfl | rfl | rfl | rfl
      · exact FailStop_pause bus q _
      · exact FailStop_setAudioReg bus q _ _
      · exact FailStop_setAudioReg bus q _ _
      · exact FailStop_setAudioReg bus q _ _
      · exact FailStop_setAudioVolume bus q _
      · exact FailStop_setAudioReg bus q _ _
      · exact FailStop_setAudioReg bus q _ _
      · exact FailStop_setAudioReg bus q _ _
      · exact FailStop_setAudioReg bus q _ _
      · exact FailStop_pause bus q _
      · exact FailStop_setAudioReg bus q _ _
      · exact FailStop_setAudioReg bus q _ _

theorem FailStop_decodeByte (bus : Nat → Bool) (p : Proc) (c : Nat) :
    FailStop bus p.i2cCalls (decodeByte bus p c).1 (decodeByte bus p c).2 := by
  by_cases hc : c &&& 0x80 = 0
  · have hcases : p.msgSize = 0 ∨ p.msgSize = 1 ∨ p.msgSize = 2 ∨ p.msgSize = 3 ∨
        3 < p.msgSize := by omega
    rcases hcases with h | h | h | h | h
    · rw [decodeByte_data0 bus p c hc h]
      exact FailStop_nil_cont bus { p with msg0 := c, msgSize := 1 }
    · rw [decodeByte_data1 bus p c hc h]
      by_cases h0 : p.msg0 = 0xc0
      · simp only [h0, if_true]
        refine (FailStop_cons_other bus _ (Event.logVolume _) _ _ rfl).mpr ?_
        rw [FailStop_cons_write]
        by_cases hb : bus p.i2cCalls
        · simp only [hb, if_true]
          exact fun q hq => by cases hq; rfl
        · simp [hb]
      · simp only [h0, if_false]
        exact FailStop_nil_cont bus { p with msg1 := c, msgSize := 2 }
    · rw [decodeByte_data2 bus p c hc h]
      by_cases h0 : (p.msg0 &&& 0xf8) = 0x90
      · simp only [h0, if_true, parseMsg, writeOplReg, delay, List.singleton_append]
        refine (FailStop_cons_other bus _ (Event.oplStore _ _) _ _ rfl).mpr ?_
        refine (FailStop_cons_other bus _ Event.nanosleep _ _ rfl).mpr ?_
        exact FailStop_nil_cont bus { p with msg2 := c, msgSize := 0 }
      · simp only [h0, if_false]
        exact FailStop_nil_cont bus { p with msg2 := c, msgSize := 3 }
    · rw [decodeByte_data3 bus p c hc h]
      exact (FailStop_cons_other bus _ (Event.logDropByte c) _ _ rfl).mpr
        (FailStop_nil_cont bus p)
    · rw [decodeByte_data_fault bus p c hc h]
      intro q hq
      cases hq
  · rw [decodeByte_status bus p c hc]
    by_cases h : p.msgSize > 0
    · simp only [h, if_true]
      exact (FailStop_cons_other bus _ (Event.logDropMsg _) _ _ rfl).mpr
        (FailStop_nil_cont bus { p with msg0 := c, msgSize := 1 })
    · simp only [h, if_false]
      exact FailStop_nil_cont bus { p with msg0 := c, msgSize := 1 }

theorem FailStop_decodeLoop (bus : Nat → Bool) (xs : List Nat) (p : Proc) :
    FailStop bus p.i2cCalls (decodeLoop bus p xs).1 (decodeLoop bus p xs).2 := by
  induction xs generalizing p with
  | nil => exact FailStop_nil_cont bus p
  | cons c cs ih =>
    have hstep := FailStop_decodeByte bus p c
    rcases h : decodeByte bus p c with ⟨ev, o⟩
    rw [h] at hstep
    cases o with
    | cont p1 =>
      rw [decodeLoop_cons_cont bus p p1 c cs ev h]
      exact FailStop_append bus ev _ _ p1 _ hstep (ih p1)
    | exit code =>
      rw [decodeLoop_cons_exit bus p c cs ev code h]
      exact hstep
    | fault =>
      rw [decodeLoop_cons_fault bus p c cs ev h]
      exact hstep

theorem FailStop_decodeChunks (bus : Nat → Bool) (chunks : List (List Nat)) (p : Proc) :
    FailStop bus p.i2cCalls (decodeChunks bus p chunks).1 (decodeChunks bus p chunks).2 := by
  induction chunks generalizing p with
  | nil => exact FailStop_nil_cont bus p
  | cons buf rest ih =>
    by_cases hbuf : buf = []
    · subst hbuf
      rw [decodeChunks_eof]
      exact (FailStop_cons_other bus _ Event.logEof _ _ rfl).mpr (FailStop_nil_cont bus p)
    · rw [decodeChunks_cons bus p buf rest hbuf]
      exact FailStop_seq bus _ _ _ (FailStop_decodeLoop bus buf p) (fun q _ => ih q)

theorem FailStop_initThenDecode (openOk ioctlOk : Bool) (bus : Nat → Bool) (m0 m1 m2 : Nat)
    (chunks : List (List Nat)) :
    FailStop bus 0 (initThenDecode openOk ioctlOk bus m0 m1 m2 chunks).1
      (initThenDecode openOk ioctlOk bus m0 m1 m2 chunks).2 := by
  unfold initThenDecode
  exact FailStop_seq bus 0 _ _ (FailStop_initAudio openOk ioctlOk bus (Proc.empty m0 m1 m2 0))
    (fun p _ => FailStop_decodeChunks bus chunks p)

/-- In a run that keeps the discipline, a frame the bus refuses is the last
hardware access: only the error log line follows and the process exits with
status 1. -/
theorem FailStop_refused (bus : Nat → Bool) (pre post : List Event) (b0 b1 : Nat) (n : Nat)
    (o : Outcome) (h : FailStop bus n (pre ++ Event.i2cWrite b0 b1 :: post) o)
    (hfail : bus (n + (pre.filter Event.isCodecWrite).length) = false) :
    post = [Event.errI2C] ∧ o = Outcome.exit 1 := by
  induction pre generalizing n with
  | nil =>
    rw [List.nil_append, FailStop_cons_write] at h
    simp only [List.filter_nil, List.length_nil, Nat.add_zero] at hfail
    simpa [hfail] using h
  | cons e rest ih =>
    rw [List.cons_append] at h
    by_cases he : e.isCodecWrite = true
    · cases e <;> simp [Event.isCodecWrite] at he
      rename_i c0 c1
      rw [FailStop_cons_write] at h
      by_cases hb : bus n
      · simp only [hb, if_true] at h
        apply ih (n + 1) h
        simpa [List.filter_cons, Event.isCodecWrite, Nat.add_assoc, Nat.add_comm 1] using hfail
      · simp only [hb] at h
        have h1 := h.1
        cases rest with
        | nil => simp at h1
        | cons x xs => simp at h1
    · have he2 : e.isCodecWrite = false := by simpa using he
      rw [FailStop_cons_other bus n e _ _ he2] at h
      apply ih n h
      simpa [List.filter_cons, he2] using hfail

/-! ## Overflow, bounds and reachability -/

/-- From `msgSize = 1` behind a first byte that starts no known message, bytes
with the high bit clear fill the buffer and, once it holds three bytes, are
dropped one by one. -/
theorem decodeLoop_fill (bus : Nat → Bool) (p : Proc) (ds : List Nat) (hp : p.msgSize = 1)
    (hf8 : (p.msg0 &&& 0xf8) ≠ 0x90) (hc0 : p.msg0 ≠ 0xc0)
    (hds : ∀ d ∈ ds, d &&& 0x80 = 0) :
    decodeLoop bus p ds =
      ((ds.drop 2).map Event.logDropByte,
        Outcome.cont { p with msg1 := ds.getD 0 p.msg1, msg2 := ds.getD 1 p.msg2,
                              msgSize := min (ds.length + 1) 3 }) := by
  match ds, hds with
  | [], _ =>
    obtain ⟨a0, a1, a2, sz, n⟩ := p
    dsimp only at hp
    subst hp
    rfl
  | [d1], hds =>
    have e2 := decodeByte_data1 bus p d1 (hds d1 (by simp)) hp
    simp only [hc0, if_false] at e2
    rw [decodeLoop_singleton, e2]
    rfl
  | d1 :: d2 :: rest, hds =>
    have e2 := decodeByte_data1 bus p d1 (hds d1 (by simp)) hp
    have e3 := decodeByte_data2 bus { p with msg1 := d1, msgSize := 2 } d2
      (hds d2 (by simp)) rfl
    simp only [hc0, if_false] at e2
    simp only [hf8, if_false] at e3
    rw [decodeLoop_cons_cont bus _ _ d1 _ _ e2, decodeLoop_cons_cont bus _ _ d2 _ _ e3,
      decodeLoop_full bus rest (fun d hd => hds d (by simp [hd])) _ rfl]
    have hmin : min (rest.length + 1 + 1 + 1) 3 = 3 := by omega
    simp [hmin]

theorem bufferBound_step (bus : Nat → Bool) (p : Proc) (c : Nat) (hinv : BufferBound p) :
    (decodeByte bus p c).2 ≠ Outcome.fault ∧
      ∀ q, (decodeByte bus p c).2 = Outcome.cont q → BufferBound q := by
  obtain ⟨hle, h3⟩ := hinv
  by_cases hc : c &&& 0x80 = 0
  · have hcases : p.msgSize = 0 ∨ p.msgSize = 1 ∨ p.msgSize = 2 ∨ p.msgSize = 3 := by omega
    rcases hcases with h | h | h | h
    · rw [decodeByte_data0 bus p c hc h]
      refine ⟨by simp, fun q hq => ?_⟩
      injection hq with hq
      subst hq
      exact ⟨by simp, fun h' => by simp at h'⟩
    · rw [decodeByte_data1 bus p c hc h]
      by_cases h0 : p.msg0 = 0xc0
      · by_cases hb : bus p.i2cCalls
        · simp only [h0, hb, if_true]
          refine ⟨by simp, fun q hq => ?_⟩
          injection hq with hq
          subst hq
          exact ⟨by simp, fun h' => by simp at h'⟩
        · simp [h0, hb]
      · simp only [h0, if_false]
        refine ⟨by simp, fun q hq => ?_⟩
        injection hq with hq
        subst hq
        exact ⟨by simp, fun h' => by simp at h'⟩
    · rw [decodeByte_data2 bus p c hc h]
      by_cases h0 : (p.msg0 &&& 0xf8) = 0x90
      · simp only [h0, if_true]
        refine ⟨by simp, fun q hq => ?_⟩
        injection hq with hq
        subst hq
        exact ⟨by simp, fun h' => by simp at h'⟩
      · simp only [h0, if_false]
        refine ⟨by simp, fun q hq => ?_⟩
        injection hq with hq
        subst hq
        exact ⟨by simp, fun _ => h0⟩
    · rw [decodeByte_data3 bus p c hc h]
      refine ⟨by simp, fun q hq => ?_⟩
      injection hq with hq
      subst hq
      exact ⟨hle, h3⟩
  · rw [decodeByte_status bus p c hc]
    refine ⟨by simp, fun q hq => ?_⟩
    injection hq with hq
    subst hq
    exact ⟨by simp, fun h' => by simp at h'⟩

/-- A run that starts within the bound never stores outside `msg[3]` and stays
within the bound. -/
theorem bufferBound_run (bus : Nat → Bool) (xs : List Nat) (p : Proc) (hinv : BufferBound p) :
    (decodeLoop bus p xs).2 ≠ Outcome.fault ∧
      ∀ q, (decodeLoop bus p xs).2 = Outcome.cont q → BufferBound q := by
  induction xs generalizing p with
  | nil =>
    refine ⟨by simp [decodeLoop], fun q hq => ?_⟩
    simp only [decodeLoop] at hq
    injection hq with hq
    subst hq
    exact hinv
  | cons c cs ih =>
    obtain ⟨hnf, hstep⟩ := bufferBound_step bus p c hinv
    rcases h : decodeByte bus p c with ⟨ev, o⟩
    rw [h] at hnf hstep
    cases o with
    | cont p1 =>
      rw [decodeLoop_cons_cont bus p p1 c cs ev h]
      exact ih p1 (hstep p1 rfl)
    | exit code =>
      rw [decodeLoop_cons_exit bus p c cs ev code h]
      exact ⟨by simp, fun q hq => by simp at hq⟩
    | fault => exact absurd rfl hnf

theorem bufferBound_empty (m0 m1 m2 n : Nat) : BufferBound (Proc.empty m0 m1 m2 n) :=
  ⟨by simp [Proc.empty], fun h => by simp [Proc.empty] at h⟩

/-- The 'dropped data byte' diagnostic is logged only by the `msgSize == 3`
branch, for the byte being processed, which has its high bit clear. -/
theorem logDropByte_origin (bus : Nat → Bool) (q : Proc) (c d : Nat)
    (hmem : Event.logDropByte d ∈ (decodeByte bus q c).1) :
    d = c ∧ c &&& 0x80 = 0 ∧ q.msgSize = 3 := by
  by_cases hc : c &&& 0x80 = 0
  · have hcases : q.msgSize = 0 ∨ q.msgSize = 1 ∨ q.msgSize = 2 ∨ q.msgSize = 3 ∨
        3 < q.msgSize := by omega
    rcases hcases with h | h | h | h | h
    · simp [decodeByte_data0 bus q c hc h] at hmem
    · rw [decodeByte_data1 bus q c hc h] at hmem
      by_cases h0 : q.msg0 = 0xc0 <;> by_cases hb : bus q.i2cCalls <;> simp [h0, hb] at hmem
    · rw [decodeByte_data2 bus q c hc h] at hmem
      by_cases h0 : (q.msg0 &&& 0xf8) = 0x90
      · simp [h0, delay, parseMsg, writeOplReg] at hmem
      · simp [h0] at hmem
    · simp only [decodeByte_data3 bus q c hc h, List.mem_singleton, Event.logDropByte.injEq]
        at hmem
      exact ⟨hmem, hc, h⟩
    · simp [decodeByte_data_fault bus q c hc h] at hmem
  · rw [decodeByte_status bus q c hc] at hmem
    by_cases h : q.msgSize > 0 <;> simp [h] at hmem

theorem regAddress_lt (s d : Nat) (hd : d < 0x80) : (((s &&& 3) <<< 7) ||| d) < 512 := by
  have h3 : s &&& 3 < 2 ^ 2 := Nat.lt_succ_of_le Nat.and_le_right
  have h7 : (s &&& 3) <<< 7 < 2 ^ (2 + 7) := Nat.shiftLeft_lt h3
  exact Nat.or_lt_two_pow h7 (by omega)

theorem or_eq_add_128 (k d : Nat) (hd : d < 128) : (128 * k) ||| d = 128 * k + d :=
  (Nat.mul_add_lt_is_or (i := 7) hd k).symm

theorem status_bits (s : Nat) (h1 : 0x90 ≤ s) (h2 : s ≤ 0x97) :
    (s &&& 3) <<< 7 = 128 * (s % 4) ∧ (s &&& 4) <<< 5 = 128 * (s / 4 % 2) := by
  interval_cases s <;> decide

/-- For an accepted status byte the address and the value are sums: the two low
bits of `s` select the 128-byte quarter of the window, bit 2 is the top bit of
the value. -/
theorem regPair_eq (s d1 d2 : Nat) (h1 : 0x90 ≤ s) (h2 : s ≤ 0x97) (hd1 : d1 < 0x80)
    (hd2 : d2 < 0x80) :
    ((s &&& 3) <<< 7) ||| d1 = 128 * (s % 4) + d1 ∧
      ((s &&& 4) <<< 5) ||| d2 = 128 * (s / 4 % 2) + d2 := by
  obtain ⟨ha, hv⟩ := status_bits s h1 h2
  rw [ha, hv, or_eq_add_128 _ d1 hd1, or_eq_add_128 _ d2 hd2]
  exact ⟨rfl, rfl⟩

theorem codecFrame_eq (reg data : Nat) (hr : reg < 128) (hd : data < 512) :
    codecFrame reg data = (2 * reg + data / 256, data % 256) := by
  have h1 : reg % 256 = reg := by omega
  have h2 : data % 65536 = data := by omega
  have h3 : data >>> 8 = data / 256 := by rw [Nat.shiftRight_eq_div_pow]
  have h5 : (data / 256) &&& 1 = data / 256 := by
    rw [Nat.and_one_is_mod]
    omega
  have h6 : reg <<< 1 = 2 ^ 1 * reg := by rw [Nat.shiftLeft_eq]; ring
  have h7 : (2 ^ 1 * reg) ||| (data / 256) = 2 ^ 1 * reg + data / 256 :=
    (Nat.mul_add_lt_is_or (i := 1) (by omega) reg).symm
  have h8 : data &&& 0xff = data % 256 := Nat.and_pow_two_sub_one_eq_mod data 8
  have h9 : (2 ^ 1 * reg + data / 256) % 256 = 2 * reg + data / 256 := by omega
  unfold codecFrame
  rw [h1, h2, h3, h5, h6, h7, h8, h9]

theorem frameDecode_eq (reg hi lo : Nat) (hh : hi < 2) (hl : lo < 256) :
    frameDecode (2 * reg + hi) lo = (reg, 256 * hi + lo) := by
  have h1 : (2 * reg + hi) >>> 1 = reg := by rw [Nat.shiftRight_eq_div_pow]; omega
  have h2 : (2 * reg + hi) &&& 1 = hi := by
    rw [Nat.and_one_is_mod]
    omega
  have h3 : hi <<< 8 = 2 ^ 8 * hi := by rw [Nat.shiftLeft_eq]; ring
  have h4 : (2 ^ 8 * hi) ||| lo = 2 ^ 8 * hi + lo := (Nat.mul_add_lt_is_or (i := 8) hl hi).symm
  unfold frameDecode
  rw [h1, h2, h3, h4]
  norm_num

theorem shiftRight_8_of_lt (data : Nat) (hd : data < 512) :
    (data >>> 8) &&& 1 = data >>> 8 := by
  rw [Nat.shiftRight_eq_div_pow, Nat.and_one_is_mod]
  omega

/-! ## Claims -/

/-- C1 (completeness on well-formed streams).  The loop starts with
`msgSize = 0`, any buffer contents, after `n` codec writes, and the codec accepts
the writes from then on.  On the concatenated bytes of any list of well-formed
messages it performs, message by message and in input order, exactly the events
of each message (the store of `((s&4)<<5)|d2` at `((s&3)<<7)|d1` with its pacing
delay, or the volume log line with the codec frame `{0x05, v}` that sets the
volume to `v`): one hardware access per message, no drop diagnostic, and the
loop ends running with `msgSize = 0`. -/
theorem C1_wellFormed_stream_complete (bus : Nat → Bool) (ms : List Message)
    (hwf : ∀ m ∈ ms, m.WellFormed) (m0 m1 m2 n : Nat)
    (hbus : ∀ k, n ≤ k → bus k = true) :
    ∃ q : Proc, q.msgSize = 0 ∧
      decodeLoop bus (Proc.empty m0 m1 m2 n) (ms.flatMap Message.bytes) =
        (ms.flatMap Message.events, Outcome.cont q) ∧
      (decodeLoop bus (Proc.empty m0 m1 m2 n) (ms.flatMap Message.bytes)).1.filter
          Event.isOperation = ms.map Message.operation ∧
      (decodeLoop bus (Proc.empty m0 m1 m2 n) (ms.flatMap Message.bytes)).1.filter
          Event.isDrop = [] := by
  obtain ⟨q, hq, e⟩ := decodeLoop_messages bus ms hwf (Proc.empty m0 m1 m2 n) rfl hbus
  refine ⟨q, hq, e, ?_, ?_⟩
  · rw [e]; exact events_filter_isOperation ms
  · rw [e]; exact events_filter_isDrop ms

theorem C1_wellFormed_stream_complete_witness :
    (∀ m ∈ [Message.regWrite 0x95 0x12 0x34, Message.volume 0x40, Message.regWrite 0x90 0 0],
        m.WellFormed) ∧
    (∀ k : Nat, 0 ≤ k → (fun _ : Nat => true) k = true) ∧
    ∃ q : Proc, q.msgSize = 0 ∧
      decodeLoop (fun _ : Nat => true) (Proc.empty 0 0 0 0)
          ([Message.regWrite 0x95 0x12 0x34, Message.volume 0x40,
            Message.regWrite 0x90 0 0].flatMap Message.bytes) =
        ([Message.regWrite 0x95 0x12 0x34, Message.volume 0x40,
            Message.regWrite 0x90 0 0].flatMap Message.events, Outcome.cont q) ∧
      (decodeLoop (fun _ : Nat => true) (Proc.empty 0 0 0 0)
          ([Message.regWrite 0x95 0x12 0x34, Message.volume 0x40,
            Message.regWrite 0x90 0 0].flatMap Message.bytes)).1.filter
          Event.isOperation =
        [Message.regWrite 0x95 0x12 0x34, Message.volume 0x40,
            Message.regWrite 0x90 0 0].map Message.operation ∧
      (decodeLoop (fun _ : Nat => true) (Proc.empty 0 0 0 0)
          ([Message.regWrite 0x95 0x12 0x34, Message.volume 0x40,
            Message.regWrite 0x90 0 0].flatMap Message.bytes)).1.filter
          Event.isDrop = [] :=
  ⟨by decide, fun _ _ => rfl,
    C1_wellFormed_stream_complete (fun _ => true) _ (by decide) 0 0 0 0 (fun _ _ => rfl)⟩

/-- C2 (soundness, no running status).  The loop starts with `msgSize = 0` and
reads the bytes `pre` and then the byte `c`.  The events of the whole input are
those of `pre` followed by those performed for `c`, and:
a store performed for `c` has address `((s&3)<<7)|d1` and value `((s&4)<<5)|c`
where `s, d1, c` are the last three bytes read, `s` in `0x90..0x97` and
`d1, c < 0x80`; a codec frame sent for `c` is `{0x05, c}` where `0xC0, c` are the
last two bytes read and `c < 0x80`; one byte performs at most one hardware
access; over any input the number of hardware accesses is at most the number of
bytes with the high bit set; and a status byte outside `0x90..0x97` other than
`0xC0`, followed by any bytes with the high bit clear, performs none. -/
theorem C2_sound_no_running_status (bus : Nat → Bool) (pre : List Nat) (c : Nat)
    (hpre : ∀ b ∈ pre, b < 256) (hc : c < 256) (m0 m1 m2 n : Nat) :
    (decodeLoop bus (Proc.empty m0 m1 m2 n) (pre ++ [c])).1 =
        (decodeLoop bus (Proc.empty m0 m1 m2 n) pre).1 ++
          eventsFor bus (Proc.empty m0 m1 m2 n) pre c ∧
    (∀ a v, Event.oplStore a v ∈ eventsFor bus (Proc.empty m0 m1 m2 n) pre c →
        ∃ pre' s d1, pre = pre' ++ [s, d1] ∧ 0x90 ≤ s ∧ s ≤ 0x97 ∧ d1 < 0x80 ∧ c < 0x80 ∧
          a = ((s &&& 3) <<< 7) ||| d1 ∧ v = ((s &&& 4) <<< 5) ||| c) ∧
    (∀ b0 b1, Event.i2cWrite b0 b1 ∈ eventsFor bus (Proc.empty m0 m1 m2 n) pre c →
        ∃ pre', pre = pre' ++ [0xc0] ∧ c < 0x80 ∧ b0 = 0x05 ∧ b1 = c) ∧
    ((eventsFor bus (Proc.empty m0 m1 m2 n) pre c).filter Event.isOperation).length ≤ 1 ∧
    (∀ xs : List Nat,
        ((decodeLoop bus (Proc.empty m0 m1 m2 n) xs).1.filter Event.isOperation).length ≤
          (xs.filter isStatus).length) ∧
    (∀ (s : Nat) (ds : List Nat) (p : Proc), 0x80 ≤ s → s < 256 → ¬ (0x90 ≤ s ∧ s ≤ 0x97) →
        s ≠ 0xc0 → (∀ d ∈ ds, d < 0x80) →
        (decodeLoop bus p (s :: ds)).1.filter Event.isOperation = []) := by
  refine ⟨decodeLoop_snoc_events bus _ pre c, ?_, ?_, ?_, ?_, ?_⟩
  · intro a v hmem
    cases h0 : (decodeLoop bus (Proc.empty m0 m1 m2 n) pre).2 with
    | cont q =>
      rw [eventsFor_of_running bus _ q pre c h0] at hmem
      obtain ⟨hle, -, hrun⟩ := bufferTracksInput_of_run bus _ rfl pre q h0
      obtain ⟨hc80, hsz, hf8, hpm⟩ := oplStore_origin bus q c a v hle hmem
      obtain ⟨pre', hpre', hd1⟩ := hrun hsz
      have hs : q.msg0 < 256 := hpre _ (by simp [hpre'])
      have hb1 : q.msg1 < 256 := hpre _ (by simp [hpre'])
      have hs' := (byte_facts _ hs).2.1 hf8
      have hd1' := (byte_facts _ hb1).1.1 hd1
      have hc' := (byte_facts _ hc).1.1 hc80
      rw [parseMsg_masked _ _ _ hs, and_0x7f_of_lt hd1', and_0x7f_of_lt hc'] at hpm
      simp only [List.mem_singleton, Event.oplStore.injEq] at hpm
      exact ⟨pre', q.msg0, q.msg1, hpre', hs'.1, hs'.2, hd1', hc', hpm.1, hpm.2⟩
    | exit code =>
      rw [eventsFor_of_stopped bus _ pre c (by simp [h0])] at hmem
      simp at hmem
    | fault =>
      rw [eventsFor_of_stopped bus _ pre c (by simp [h0])] at hmem
      simp at hmem
  · intro b0 b1 hmem
    cases h0 : (decodeLoop bus (Proc.empty m0 m1 m2 n) pre).2 with
    | cont q =>
      rw [eventsFor_of_running bus _ q pre c h0] at hmem
      obtain ⟨hle, hrun, -⟩ := bufferTracksInput_of_run bus _ rfl pre q h0
      obtain ⟨hc80, hsz, hs, hb0, hb1⟩ := i2cWrite_origin bus q c b0 b1 hle hmem
      obtain ⟨pre', hpre'⟩ := hrun hsz
      have hc' := (byte_facts _ hc).1.1 hc80
      rw [and_0x7f_of_lt hc'] at hb1
      exact ⟨pre', by rw [hpre', hs], hc', hb0, hb1⟩
    | exit code =>
      rw [eventsFor_of_stopped bus _ pre c (by simp [h0])] at hmem
      simp at hmem
    | fault =>
      rw [eventsFor_of_stopped bus _ pre c (by simp [h0])] at hmem
      simp at hmem
  · cases h0 : (decodeLoop bus (Proc.empty m0 m1 m2 n) pre).2 with
    | cont q =>
      rw [eventsFor_of_running bus _ q pre c h0]
      exact decodeByte_operation_le_one bus q c
    | exit code =>
      rw [eventsFor_of_stopped bus (Proc.empty m0 m1 m2 n) pre c (by simp [h0])]
      simp
    | fault =>
      rw [eventsFor_of_stopped bus (Proc.empty m0 m1 m2 n) pre c (by simp [h0])]
      simp
  · intro xs
    have h := decodeLoop_operation_count bus (Proc.empty m0 m1 m2 n) xs
    have hp : (Proc.empty m0 m1 m2 n).pending = 0 := by simp [Proc.pending, Proc.empty]
    omega
  · intro s ds p h80 h256 hrange hc0 hds
    have hs80 : s &&& 0x80 ≠ 0 := fun h => by
      have := (byte_facts s h256).1.1 h
      omega
    have hf8 : (s &&& 0xf8) ≠ 0x90 := fun h => hrange ((byte_facts s h256).2.1 h)
    have e := decodeByte_status bus p s hs80
    rw [decodeLoop_cons_cont bus p _ s ds _ e, List.filter_append,
      decodeLoop_data_no_operation bus ds (fun d hd => and_0x80_of_lt (hds d hd))
        { p with msg0 := s, msgSize := 1 } (by simp) (by simp) hf8 hc0]
    by_cases h : p.msgSize > 0 <;> simp [h, Event.isOperation]

theorem C2_sound_no_running_status_witness :
    (∀ b ∈ [0x05, 0x93, 0x7f], b < 256) ∧ 0x7f < 256 ∧
    (∀ a v, Event.oplStore a v ∈
          eventsFor (fun _ : Nat => true) (Proc.empty 0 0 0 0) [0x05, 0x93, 0x7f] 0x7f →
        ∃ pre' s d1, [0x05, 0x93, 0x7f] = pre' ++ [s, d1] ∧ 0x90 ≤ s ∧ s ≤ 0x97 ∧ d1 < 0x80 ∧
          0x7f < 0x80 ∧ a = ((s &&& 3) <<< 7) ||| d1 ∧ v = ((s &&& 4) <<< 5) ||| 0x7f) ∧
    Event.oplStore 511 127 ∈
      eventsFor (fun _ : Nat => true) (Proc.empty 0 0 0 0) [0x05, 0x93, 0x7f] 0x7f :=
  ⟨by decide, by decide,
    (C2_sound_no_running_status (fun _ => true) [0x05, 0x93, 0x7f] 0x7f (by decide) (by decide)
      0 0 0 0).2.1,
    by decide⟩

/-- C3, as the specification states it, fails for an empty chunk: a `read` that
returns 0 bytes is end of file, so the chunk `[]` followed by the chunk
`[0x90, 0, 0]` logs the end of file and leaves the loop, while the single chunk
`[] ++ [0x90, 0, 0]` performs the store. -/
theorem C3_empty_chunk_counterexample :
    decodeChunks (fun _ : Nat => true) (Proc.empty 0 0 0 0) [[] ++ [0x90, 0x00, 0x00]] =
      ([Event.oplStore 0 0, Event.nanosleep],
        Outcome.cont { msg0 := 0x90, msg1 := 0, msg2 := 0, msgSize := 0, i2cCalls := 0 }) ∧
    decodeChunks (fun _ : Nat => true) (Proc.empty 0 0 0 0) [[], [0x90, 0x00, 0x00]] =
      ([Event.logEof], Outcome.cont (Proc.empty 0 0 0 0)) ∧
    decodeChunks (fun _ : Nat => true) (Proc.empty 0 0 0 0) [[] ++ [0x90, 0x00, 0x00]] ≠
      decodeChunks (fun _ : Nat => true) (Proc.empty 0 0 0 0) [[], [0x90, 0x00, 0x00]] := by
  decide

/-- C3 (amended: chunk-boundary independence for non-empty chunks).  From every
state, for non-empty `xs` and `ys`, the read loop on the single chunk `xs ++ ys`
gives the same events, in the same order, and the same final outcome (state
`msg`, `msgSize`, or exit) as on the chunk `xs` followed by the chunk `ys`; and
feeding a non-empty byte sequence one byte per chunk gives the same events and
outcome as feeding it as one chunk, which is the `for` loop over the whole
sequence.  An empty chunk is end of file: it logs it and ends the loop, whatever
reads would follow. -/
theorem C3_nonempty_chunk_boundary_independence (bus : Nat → Bool) (p : Proc)
    (xs ys : List Nat) (hx : xs ≠ []) (hy : ys ≠ []) :
    decodeChunks bus p [xs ++ ys] = decodeChunks bus p [xs, ys] ∧
    decodeChunks bus p (xs.map (fun c => [c])) = decodeChunks bus p [xs] ∧
    decodeChunks bus p [xs] = decodeLoop bus p xs ∧
    (∀ rest : List (List Nat),
      decodeChunks bus p ([] :: rest) = ([Event.logEof], Outcome.cont p)) := by
  have hxy : xs ++ ys ≠ [] := fun h => hx (List.append_eq_nil.mp h).1
  have h1 : ∀ buf ∈ [xs ++ ys], buf ≠ [] := by
    intro buf hb
    simp only [List.mem_singleton] at hb
    rw [hb]
    exact hxy
  have h2 : ∀ buf ∈ [xs, ys], buf ≠ [] := by
    intro buf hb
    simp only [List.mem_cons, List.mem_singleton, List.not_mem_nil, or_false] at hb
    rcases hb with rfl | rfl
    · exact hx
    · exact hy
  have h3 : ∀ buf ∈ xs.map (fun c => [c]), buf ≠ [] := by
    intro buf hb
    simp only [List.mem_map] at hb
    obtain ⟨c, -, rfl⟩ := hb
    simp
  have h4 : ∀ buf ∈ [xs], buf ≠ [] := by
    intro buf hb
    simp only [List.mem_singleton] at hb
    rw [hb]
    exact hx
  refine ⟨?_, ?_, ?_, fun rest => decodeChunks_eof bus p rest⟩
  · rw [decodeChunks_eq_flatten bus p _ h1, decodeChunks_eq_flatten bus p _ h2]
    simp
  · rw [decodeChunks_eq_flatten bus p _ h3, decodeChunks_eq_flatten bus p _ h4]
    congr 1
    clear hx hxy h1 h2 h3 h4
    induction xs with
    | nil => rfl
    | cons c cs ih => simpa using ih
  · rw [decodeChunks_eq_flatten bus p _ h4]
    simp

theorem C3_nonempty_chunk_boundary_independence_witness :
    ([0x90, 0x01] : List Nat) ≠ [] ∧ ([0x02, 0xC0, 0x40] : List Nat) ≠ [] ∧
    decodeChunks (fun _ : Nat => true) (Proc.empty 0 0 0 0) [[0x90, 0x01] ++ [0x02, 0xC0, 0x40]] =
      decodeChunks (fun _ : Nat => true) (Proc.empty 0 0 0 0) [[0x90, 0x01], [0x02, 0xC0, 0x40]] :=
  ⟨by decide, by decide,
    (C3_nonempty_chunk_boundary_independence (fun _ => true) (Proc.empty 0 0 0 0) [0x90, 0x01]
      [0x02, 0xC0, 0x40] (by decide) (by decide)).1⟩

/-- C4 (Note-On translation).  For every byte `b0` with `(b0 & 0xF8) == 0x90`
and every `b1`, `b2` with the high bit clear, the loop started with
`msgSize = 0` on `[b0, b1, b2]` performs exactly one store into the register
window, at address `((b0 & 0x03) << 7) | (b1 & 0x7F)` with value
`((b0 & 0x04) << 5) | (b2 & 0x7F)`, followed by the pacing delay, and no codec
write; for `[0x90, 0x00, 0x00]` the store is at address 0 with value 0. -/
theorem C4_noteOn_translation (bus : Nat → Bool) (b0 b1 b2 : Nat) (h0 : b0 < 256)
    (hf8 : (b0 &&& 0xF8) = 0x90) (h1 : b1 &&& 0x80 = 0) (h2 : b2 &&& 0x80 = 0)
    (m0 m1 m2 n : Nat) :
    decodeLoop bus (Proc.empty m0 m1 m2 n) [b0, b1, b2] =
        ([Event.oplStore (((b0 &&& 0x03) <<< 7) ||| (b1 &&& 0x7F))
            (((b0 &&& 0x04) <<< 5) ||| (b2 &&& 0x7F)), Event.nanosleep],
          Outcome.cont { msg0 := b0, msg1 := b1, msg2 := b2, msgSize := 0, i2cCalls := n }) ∧
    (decodeLoop bus (Proc.empty m0 m1 m2 n) [b0, b1, b2]).1.filter Event.isOperation =
        [Event.oplStore (((b0 &&& 0x03) <<< 7) ||| (b1 &&& 0x7F))
            (((b0 &&& 0x04) <<< 5) ||| (b2 &&& 0x7F))] ∧
    (decodeLoop bus (Proc.empty m0 m1 m2 n) [0x90, 0x00, 0x00]).1 =
        [Event.oplStore 0 0, Event.nanosleep] := by
  have e := decodeLoop_noteOn bus (Proc.empty m0 m1 m2 n) b0 b1 b2 h0 hf8 h1 h2
  have e0 := decodeLoop_noteOn bus (Proc.empty m0 m1 m2 n) 0x90 0 0 (by decide) (by decide)
    (by decide) (by decide)
  simp only [Proc.empty, gt_iff_lt, lt_irrefl, if_false, List.nil_append] at e e0
  refine ⟨e, ?_, ?_⟩
  · simp only [Proc.empty]
    rw [e]
    simp [Event.isOperation]
  · simp only [Proc.empty]
    rw [e0]
    rfl

theorem C4_noteOn_translation_witness :
    0x95 < 256 ∧ (0x95 &&& 0xF8) = 0x90 ∧ 0x12 &&& 0x80 = 0 ∧ 0x34 &&& 0x80 = 0 ∧
    decodeLoop (fun _ : Nat => true) (Proc.empty 0 0 0 0) [0x95, 0x12, 0x34] =
      ([Event.oplStore 146 180, Event.nanosleep],
        Outcome.cont { msg0 := 0x95, msg1 := 0x12, msg2 := 0x34, msgSize := 0, i2cCalls := 0 }) :=
  ⟨by decide, by decide, by decide, by decide,
    (C4_noteOn_translation (fun _ => true) 0x95 0x12 0x34 (by decide) (by decide) (by decide)
      (by decide) 0 0 0 0).1⟩

/-- C5, as the specification states it, fails: for `[0x93, 0x7F, 0x7F]` the one
store performed is at address 511 with value 127, not 255. -/
theorem C5_value_255_counterexample :
    (decodeLoop (fun _ : Nat => true) (Proc.empty 0 0 0 0) [0x93, 0x7F, 0x7F]).1.filter
        Event.isOperation = [Event.oplStore 511 127] ∧
    Event.oplStore 511 255 ∉
      (decodeLoop (fun _ : Nat => true) (Proc.empty 0 0 0 0) [0x93, 0x7F, 0x7F]).1 := by
  decide

/-- C5 (amended).  The bytes `[0x93, 0x7F, 0x7F]` read with `msgSize = 0` give
a single store into the register window, at address 511 with value 127: bit 2 of
`0x93` is clear, so the value is `((0x93 & 4) << 5) | 0x7F = 0 | 127`. -/
theorem C5_example_address_511_value_127 (bus : Nat → Bool) (m0 m1 m2 n : Nat) :
    decodeLoop bus (Proc.empty m0 m1 m2 n) [0x93, 0x7F, 0x7F] =
        ([Event.oplStore 511 127, Event.nanosleep],
          Outcome.cont { msg0 := 0x93, msg1 := 0x7F, msg2 := 0x7F, msgSize := 0, i2cCalls := n }) ∧
    ((0x93 &&& 3) <<< 7) ||| 0x7F = 511 ∧ ((0x93 &&& 4) <<< 5) ||| 0x7F = 127 := by
  have e := decodeLoop_noteOn bus (Proc.empty m0 m1 m2 n) 0x93 0x7F 0x7F (by decide)
    (by decide) (by decide) (by decide)
  simp only [Proc.empty, gt_iff_lt, lt_irrefl, if_false, List.nil_append] at e
  exact ⟨e, by decide, by decide⟩

/-- C6 (Program-Change translation).  For every byte `v` with the high bit
clear, the loop started with `msgSize = 0` on `[0xC0, v]` logs the level and
performs the call `setAudioReg(ssm2603, 2, (1 << 8) | (v & 0x7F))`, which sends
the single frame `{0x05, v & 0x7F}` (register `0x05 >> 1 = 2`, ninth data bit
set, low byte `v & 0x7F`) and nothing else unless the write fails; there is no
store into the register window.  For `[0xC0, 0x40]` the value is 320. -/
theorem C6_programChange_translation (bus : Nat → Bool) (v : Nat)
    (hhi : v &&& 0x80 = 0) (m0 m1 m2 n : Nat) :
    (decodeLoop bus (Proc.empty m0 m1 m2 n) [0xC0, v]).1 =
        Event.logVolume (((v &&& 0x7F : Nat) : Int) - 121) ::
          (setAudioReg bus { msg0 := 0xC0, msg1 := v, msg2 := m2, msgSize := 2, i2cCalls := n }
            2 ((1 <<< 8) ||| (v &&& 0x7F))).1 ∧
    (setAudioReg bus { msg0 := 0xC0, msg1 := v, msg2 := m2, msgSize := 2, i2cCalls := n }
        2 ((1 <<< 8) ||| (v &&& 0x7F))).1 =
      Event.i2cWrite 0x05 (v &&& 0x7F) :: (if bus n then [] else [Event.errI2C]) ∧
    (decodeLoop bus (Proc.empty m0 m1 m2 n) [0xC0, v]).1.filter Event.isOperation =
        [Event.i2cWrite 0x05 (v &&& 0x7F)] ∧
    (0x05 >>> 1 = 2 ∧ ((0x05 &&& 1) <<< 8) ||| (v &&& 0x7F) = (1 <<< 8) ||| (v &&& 0x7F)) ∧
    (1 <<< 8) ||| (0x40 &&& 0x7F) = 320 := by
  have hlt : v &&& 0x7F < 0x80 := and_0x7f_lt v
  have hreg := setAudioReg_volume bus
    { msg0 := 0xC0, msg1 := v, msg2 := m2, msgSize := 2, i2cCalls := n } (v &&& 0x7F) hlt
  have e1 := decodeByte_status bus (Proc.empty m0 m1 m2 n) 0xC0 (by decide)
  have e2 := decodeByte_data1 bus { Proc.empty m0 m1 m2 n with msg0 := 0xC0, msgSize := 1 } v
    hhi rfl
  simp only [Proc.empty, gt_iff_lt, lt_irrefl, if_false, if_true] at e1 e2
  have hloop : (decodeLoop bus (Proc.empty m0 m1 m2 n) [0xC0, v]).1 =
      Event.logVolume (((v &&& 0x7F : Nat) : Int) - 121) :: Event.i2cWrite 0x05 (v &&& 0x7F) ::
        (if bus n then [] else [Event.errI2C]) := by
    simp only [Proc.empty]
    rw [decodeLoop_cons_cont bus _ _ 0xC0 _ _ e1, decodeLoop_singleton, e2]
    simp
  refine ⟨by rw [hloop, hreg], hreg, ?_, ⟨by decide, ?_⟩, by decide⟩
  · rw [hloop]
    by_cases hb : bus n <;> simp [hb, Event.isOperation]
  · have h5 : (0x05 &&& 1) <<< 8 = 1 <<< 8 := by decide
    rw [h5]

theorem C6_programChange_translation_witness :
    0x40 &&& 0x80 = 0 ∧
    (decodeLoop (fun _ : Nat => true) (Proc.empty 0 0 0 0) [0xC0, 0x40]).1.filter
        Event.isOperation = [Event.i2cWrite 0x05 (0x40 &&& 0x7F)] :=
  ⟨by decide,
    (C6_programChange_translation (fun _ => true) 0x40 (by decide) 0 0 0 0).2.2.1⟩

/-- C7, as the specification states it, fails: the status byte `0x98` has high
nibble 9, yet `[0x98, 0x00, 0x00]` performs no store (and nothing else). -/
theorem C7_status_0x98_counterexample :
    (decodeLoop (fun _ : Nat => true) (Proc.empty 0 0 0 0) [0x98, 0x00, 0x00]).1 = [] ∧
    (0x98 &&& 0xf8) ≠ 0x90 := by
  decide

/-- C7 (amended).  Only the status bytes `0x90..0x97` carry a register write.
For every status byte `s` in `0x90..0x9F` and data bytes `d1, d2 < 0x80`, the
loop started with `msgSize = 0` on `[s, d1, d2]` performs exactly one store, at
`((s&3)<<7)|d1` with value `((s&4)<<5)|d2`, when `s ≤ 0x97` (whatever its three
low bits), and performs nothing, keeping the three bytes buffered with
`msgSize = 3`, when `s` is in `0x98..0x9F`. -/
theorem C7_noteOn_needs_bit3_clear (bus : Nat → Bool) (s d1 d2 : Nat) (hs1 : 0x90 ≤ s)
    (hs2 : s ≤ 0x9F) (hd1 : d1 < 0x80) (hd2 : d2 < 0x80) (m0 m1 m2 n : Nat) :
    decodeLoop bus (Proc.empty m0 m1 m2 n) [s, d1, d2] =
      if s ≤ 0x97 then
        ([Event.oplStore (((s &&& 3) <<< 7) ||| d1) (((s &&& 4) <<< 5) ||| d2), Event.nanosleep],
          Outcome.cont { msg0 := s, msg1 := d1, msg2 := d2, msgSize := 0, i2cCalls := n })
      else
        ([], Outcome.cont { msg0 := s, msg1 := d1, msg2 := d2, msgSize := 3, i2cCalls := n }) := by
  have hb := byte_facts s (by omega)
  by_cases h97 : s ≤ 0x97
  · have e := decodeLoop_noteOn bus (Proc.empty m0 m1 m2 n) s d1 d2 (by omega)
      (hb.2.2 ⟨hs1, h97⟩) (and_0x80_of_lt hd1) (and_0x80_of_lt hd2)
    rw [and_0x7f_of_lt hd1, and_0x7f_of_lt hd2] at e
    simp only [Proc.empty, gt_iff_lt, lt_irrefl, if_false, List.nil_append] at e
    simp only [h97, if_true, Proc.empty]
    exact e
  · have hs80 : s &&& 0x80 ≠ 0 := fun h => by
      have := hb.1.1 h
      omega
    have hf8 : (s &&& 0xf8) ≠ 0x90 := fun h => h97 (hb.2.1 h).2
    have hc0 : s ≠ 0xc0 := by omega
    have e1 := decodeByte_status bus (Proc.empty m0 m1 m2 n) s hs80
    have e2 := decodeByte_data1 bus { Proc.empty m0 m1 m2 n with msg0 := s, msgSize := 1 } d1
      (and_0x80_of_lt hd1) rfl
    have e3 := decodeByte_data2 bus
      { Proc.empty m0 m1 m2 n with msg0 := s, msg1 := d1, msgSize := 2 } d2
      (and_0x80_of_lt hd2) rfl
    simp only [Proc.empty, gt_iff_lt, lt_irrefl, if_false, hc0, hf8] at e1 e2 e3
    simp only [h97, if_false, Proc.empty]
    rw [decodeLoop_cons_cont bus _ _ s _ _ e1, decodeLoop_cons_cont bus _ _ d1 _ _ e2,
      decodeLoop_cons_cont bus _ _ d2 _ _ e3]
    rfl

theorem C7_noteOn_needs_bit3_clear_witness :
    0x90 ≤ 0x9A ∧ 0x9A ≤ 0x9F ∧ 0x01 < 0x80 ∧ 0x02 < 0x80 ∧
    decodeLoop (fun _ : Nat => true) (Proc.empty 0 0 0 0) [0x9A, 0x01, 0x02] =
      if 0x9A ≤ 0x97 then
        ([Event.oplStore (((0x9A &&& 3) <<< 7) ||| 0x01) (((0x9A &&& 4) <<< 5) ||| 0x02),
            Event.nanosleep],
          Outcome.cont { msg0 := 0x9A, msg1 := 0x01, msg2 := 0x02, msgSize := 0, i2cCalls := 0 })
      else
        ([], Outcome.cont
          { msg0 := 0x9A, msg1 := 0x01, msg2 := 0x02, msgSize := 3, i2cCalls := 0 }) :=
  ⟨by decide, by decide, by decide, by decide,
    C7_noteOn_needs_bit3_clear (fun _ => true) 0x9A 0x01 0x02 (by decide) (by decide)
      (by decide) (by decide) 0 0 0 0⟩

/-- C8 (a status byte always resets the partial message).  In every state, a
byte `s` with the high bit set is stored as `msg[0]` with `msgSize = 1`; the
only event is the 'dropped message' diagnostic carrying the old `msg[0]`, and it
appears exactly when `msgSize` was positive.  For any two prior states at the
same position on the I2C bus, the events performed for any bytes `cs` read after
`s` are the same list `tail`: nothing left in the buffer from before `s` is ever
observed. -/
theorem C8_status_byte_resets (bus : Nat → Bool) (p q : Proc) (s : Nat) (cs : List Nat)
    (hs : s &&& 0x80 ≠ 0) (hn : p.i2cCalls = q.i2cCalls) :
    decodeByte bus p s =
        ((if p.msgSize > 0 then [Event.logDropMsg p.msg0] else []),
          Outcome.cont { p with msg0 := s, msgSize := 1 }) ∧
    ∃ tail : List Event,
      (decodeLoop bus p (s :: cs)).1 =
        (if p.msgSize > 0 then [Event.logDropMsg p.msg0] else []) ++ tail ∧
      (decodeLoop bus q (s :: cs)).1 =
        (if q.msgSize > 0 then [Event.logDropMsg q.msg0] else []) ++ tail := by
  have e1 := decodeByte_status bus p s hs
  have e2 := decodeByte_status bus q s hs
  refine ⟨e1, (decodeLoop bus { p with msg0 := s, msgSize := 1 } cs).1, ?_, ?_⟩
  · rw [decodeLoop_cons_cont bus _ _ s _ _ e1]
  · rw [decodeLoop_cons_cont bus _ _ s _ _ e2]
    have hag : Proc.agree { p with msg0 := s, msgSize := 1 } { q with msg0 := s, msgSize := 1 } :=
      ⟨rfl, hn, fun _ => rfl, fun h => by simp at h⟩
    rw [(decodeLoop_agree bus cs _ _ hag).1]

theorem C8_status_byte_resets_witness :
    0xC0 &&& 0x80 ≠ 0 ∧
    (({ msg0 := 0x91, msg1 := 0x22, msg2 := 0x33, msgSize := 2, i2cCalls := 4 } : Proc).i2cCalls =
      ({ msg0 := 0x05, msg1 := 0x06, msg2 := 0x07, msgSize := 0, i2cCalls := 4 } : Proc).i2cCalls) ∧
    decodeByte (fun _ : Nat => true)
        { msg0 := 0x91, msg1 := 0x22, msg2 := 0x33, msgSize := 2, i2cCalls := 4 } 0xC0 =
      ([Event.logDropMsg 0x91],
        Outcome.cont { msg0 := 0xC0, msg1 := 0x22, msg2 := 0x33, msgSize := 1, i2cCalls := 4 }) :=
  ⟨by decide, rfl,
    (C8_status_byte_resets (fun _ => true)
      { msg0 := 0x91, msg1 := 0x22, msg2 := 0x33, msgSize := 2, i2cCalls := 4 }
      { msg0 := 0x05, msg1 := 0x06, msg2 := 0x07, msgSize := 0, i2cCalls := 4 }
      0xC0 [0x40, 0x90, 0x01, 0x02] (by decide) rfl).1⟩

/-- C9, as the specification states it, fails: the byte `0x05` read with
`msgSize = 0` is stored in `msg[0]` and leaves `msgSize = 1`, a reachable state
whose `msg[0]` has the high bit clear, and the next status byte then logs a
'dropped message' diagnostic that carries `0x05`, which is not a status byte. -/
theorem C9_stray_data_byte_counterexample :
    decodeByte (fun _ : Nat => true) (Proc.empty 0 0 0 0) 0x05 =
      ([], Outcome.cont { msg0 := 0x05, msg1 := 0, msg2 := 0, msgSize := 1, i2cCalls := 0 }) ∧
    0x05 &&& 0x80 = 0 ∧
    (decodeLoop (fun _ : Nat => true) (Proc.empty 0 0 0 0) [0x05, 0x90]).1 =
      [Event.logDropMsg 0x05] := by
  decide

/-- C9 (amended).  A byte `c` with the high bit clear read with `msgSize = 0` is
appended: it is stored in `msg[0]`, `msgSize` becomes 1 and nothing is emitted.
It never starts a message: the bytes `ds` with the high bit clear that follow
are buffered up to three bytes in all and then dropped one by one with a
'dropped data byte' diagnostic, no store or codec frame is performed, `msg[0]`
stays `c` with `msgSize > 0`, and the next status byte logs a 'dropped message'
diagnostic carrying `c`. -/
theorem C9_stray_data_byte_is_buffered (bus : Nat → Bool) (p : Proc) (c s : Nat)
    (ds : List Nat) (hp : p.msgSize = 0) (hc : c &&& 0x80 = 0)
    (hds : ∀ d ∈ ds, d &&& 0x80 = 0) (hs : s &&& 0x80 ≠ 0) :
    decodeByte bus p c = ([], Outcome.cont { p with msg0 := c, msgSize := 1 }) ∧
    (decodeLoop bus p (c :: ds)).1 = (ds.drop 2).map Event.logDropByte ∧
    (decodeLoop bus p (c :: ds)).1.filter Event.isOperation = [] ∧
    (∃ q : Proc, (decodeLoop bus p (c :: ds)).2 = Outcome.cont q ∧ q.msg0 = c ∧
        q.msgSize = min (ds.length + 1) 3) ∧
    (decodeLoop bus p ((c :: ds) ++ [s])).1 =
      (ds.drop 2).map Event.logDropByte ++ [Event.logDropMsg c] := by
  have e := decodeLoop_stray_data bus p c ds hp hc hds
  refine ⟨decodeByte_data0 bus p c hc hp, by rw [e], ?_, ⟨_, by rw [e], rfl, rfl⟩, ?_⟩
  · rw [e]
    apply List.filter_eq_nil_iff.mpr
    intro a ha
    simp only [List.mem_map] at ha
    obtain ⟨d, -, rfl⟩ := ha
    simp [Event.isOperation]
  · rw [decodeLoop_snoc_events, eventsFor_of_running bus p _ (c :: ds) s (by rw [e]),
      decodeByte_status bus _ s hs, e]
    have hpos : min (ds.length + 1) 3 > 0 := by omega
    simp [hpos]

theorem C9_stray_data_byte_is_buffered_witness :
    (Proc.empty 0 0 0 0).msgSize = 0 ∧ 0x05 &&& 0x80 = 0 ∧
    (∀ d ∈ [0x01, 0x02, 0x03, 0x04], d &&& 0x80 = 0) ∧ 0x90 &&& 0x80 ≠ 0 ∧
    (decodeLoop (fun _ : Nat => true) (Proc.empty 0 0 0 0)
        ((0x05 :: [0x01, 0x02, 0x03, 0x04]) ++ [0x90])).1 =
      ([0x01, 0x02, 0x03, 0x04].drop 2).map Event.logDropByte ++ [Event.logDropMsg 0x05] :=
  ⟨rfl, by decide, by decide, by decide,
    (C9_stray_data_byte_is_buffered (fun _ => true) (Proc.empty 0 0 0 0) 0x05 0x90
      [0x01, 0x02, 0x03, 0x04] rfl (by decide) (by decide) (by decide)).2.2.2.2⟩

/-- C10 (recovery from a dangling message).  A status byte `s1` in `0x90..0x97`
followed by at most one data byte, read with `msgSize = 0`, and then a complete
message `[s2, d1, d2]` (`s2` in `0x90..0x97`, `d1, d2 < 0x80`) give exactly: one
'dropped message' diagnostic carrying `s1`, then one store at `((s2&3)<<7)|d1`
with value `((s2&4)<<5)|d2` and its pacing delay; the loop ends with
`msgSize = 0`.  For `[0x90, 0x10, 0x91, 0x00, 0x00]` this is the drop of status
`0x90` and the store of 0 at address 128. -/
theorem C10_recovery_from_dangling_message (bus : Nat → Bool) (s1 s2 d1 d2 : Nat)
    (ds : List Nat) (hs1 : 0x90 ≤ s1 ∧ s1 ≤ 0x97) (hlen : ds.length ≤ 1)
    (hds : ∀ d ∈ ds, d < 0x80) (hs2 : 0x90 ≤ s2 ∧ s2 ≤ 0x97) (hd1 : d1 < 0x80)
    (hd2 : d2 < 0x80) (m0 m1 m2 n : Nat) :
    (decodeLoop bus (Proc.empty m0 m1 m2 n) ((s1 :: ds) ++ [s2, d1, d2])).1 =
        [Event.logDropMsg s1,
          Event.oplStore (((s2 &&& 3) <<< 7) ||| d1) (((s2 &&& 4) <<< 5) ||| d2),
          Event.nanosleep] ∧
    (∃ q : Proc, (decodeLoop bus (Proc.empty m0 m1 m2 n) ((s1 :: ds) ++ [s2, d1, d2])).2 =
        Outcome.cont q ∧ q.msgSize = 0) ∧
    (decodeLoop bus (Proc.empty m0 m1 m2 n) [0x90, 0x10, 0x91, 0x00, 0x00]).1 =
        [Event.logDropMsg 0x90, Event.oplStore 128 0, Event.nanosleep] := by
  have key : ∀ (t1 t2 e1 e2 : Nat) (es : List Nat), 0x90 ≤ t1 ∧ t1 ≤ 0x97 → es.length ≤ 1 →
      (∀ d ∈ es, d < 0x80) → 0x90 ≤ t2 ∧ t2 ≤ 0x97 → e1 < 0x80 → e2 < 0x80 →
      ∃ q : Proc, q.msgSize = 0 ∧
        decodeLoop bus (Proc.empty m0 m1 m2 n) ((t1 :: es) ++ [t2, e1, e2]) =
          ([Event.logDropMsg t1,
            Event.oplStore (((t2 &&& 3) <<< 7) ||| e1) (((t2 &&& 4) <<< 5) ||| e2),
            Event.nanosleep], Outcome.cont q) := by
    intro t1 t2 e1 e2 es ht1 hl hes ht2 he1 he2
    obtain ⟨h180, -, h1c0, -⟩ := status_facts ht1.1 ht1.2
    obtain ⟨-, h2f8, -, -⟩ := status_facts ht2.1 ht2.2
    have a1 := decodeByte_status bus (Proc.empty m0 m1 m2 n) t1 h180
    simp only [Proc.empty, gt_iff_lt, lt_irrefl, if_false] at a1
    have hpre : ∃ q0 : Proc, q0.msgSize > 0 ∧ q0.msg0 = t1 ∧
        decodeLoop bus (Proc.empty m0 m1 m2 n) (t1 :: es) = ([], Outcome.cont q0) := by
      match es, hl, hes with
      | [], _, _ =>
        refine ⟨_, ?_, ?_, by simp only [Proc.empty]; rw [decodeLoop_singleton, a1]⟩ <;> simp
      | [d0], _, hes =>
        have a2 := decodeByte_data1 bus
          { msg0 := t1, msg1 := m1, msg2 := m2, msgSize := 1, i2cCalls := n } d0
          (and_0x80_of_lt (hes d0 (by simp))) rfl
        simp only [h1c0, if_false] at a2
        refine ⟨_, ?_, ?_, by
          simp only [Proc.empty]
          rw [decodeLoop_cons_cont bus _ _ t1 _ _ a1, decodeLoop_singleton, a2]
          rfl⟩ <;> simp
      | _ :: _ :: _, hl, _ => simp at hl
    obtain ⟨q0, hq0, hm, hrun⟩ := hpre
    have hno := decodeLoop_noteOn bus q0 t2 e1 e2 (by omega) h2f8 (and_0x80_of_lt he1)
      (and_0x80_of_lt he2)
    rw [and_0x7f_of_lt he1, and_0x7f_of_lt he2] at hno
    simp only [hq0, if_true, hm] at hno
    refine ⟨{ msg0 := t2, msg1 := e1, msg2 := e2, msgSize := 0, i2cCalls := q0.i2cCalls },
      rfl, ?_⟩
    rw [decodeLoop_append, hrun]
    simp only [Outcome.andThen, hno, List.nil_append]
    rfl
  obtain ⟨q, hq, e⟩ := key s1 s2 d1 d2 ds hs1 hlen hds hs2 hd1 hd2
  obtain ⟨q', -, e'⟩ := key 0x90 0x91 0x00 0x00 [0x10] (by decide) (by decide) (by decide)
    (by decide) (by decide) (by decide)
  refine ⟨by rw [e], ⟨q, by rw [e], hq⟩, ?_⟩
  have e5 : decodeLoop bus (Proc.empty m0 m1 m2 n) [0x90, 0x10, 0x91, 0x00, 0x00] = _ := e'
  rw [e5]
  rfl

theorem C10_recovery_from_dangling_message_witness :
    (0x90 ≤ 0x92 ∧ 0x92 ≤ 0x97) ∧ ([0x10] : List Nat).length ≤ 1 ∧
    (∀ d ∈ [0x10], d < 0x80) ∧ (0x90 ≤ 0x95 ∧ 0x95 ≤ 0x97) ∧ 0x12 < 0x80 ∧ 0x34 < 0x80 ∧
    (decodeLoop (fun _ : Nat => true) (Proc.empty 0 0 0 0)
        ((0x92 :: [0x10]) ++ [0x95, 0x12, 0x34])).1 =
      [Event.logDropMsg 0x92,
        Event.oplStore (((0x95 &&& 3) <<< 7) ||| 0x12) (((0x95 &&& 4) <<< 5) ||| 0x34),
        Event.nanosleep] :=
  ⟨by decide, by decide, by decide, by decide, by decide, by decide,
    (C10_recovery_from_dangling_message (fun _ => true) 0x92 0x95 0x12 0x34 [0x10] (by decide)
      (by decide) (by decide) (by decide) (by decide) (by decide) 0 0 0 0).1⟩

/-- C11 (overflow drop).  In every state with `msgSize = 3`, a byte `c` with the
high bit clear is dropped: the only event is the 'dropped data byte' diagnostic
for `c`, and `msgSize` and the buffer are unchanged.  So a status byte `s`
outside `0x90..0x97` and other than `0xC0`, followed by `n ≥ 3` data bytes `ds`,
gives (after the drop diagnostic of an unfinished earlier message, if any) one
'dropped data byte' diagnostic for each data byte from the third on, `n - 2` in
all, and no store or codec frame; the buffer keeps `s` with `msgSize = 3`, and
the next status byte only logs a 'dropped message' diagnostic carrying `s`. -/
theorem C11_overflow_drop (bus : Nat → Bool) (p p0 : Proc) (c s : Nat) (ds : List Nat)
    (hp : p.msgSize = 3) (hc : c &&& 0x80 = 0) (hs1 : 0x80 ≤ s) (hs2 : s < 256)
    (hrange : ¬ (0x90 ≤ s ∧ s ≤ 0x97)) (hc0 : s ≠ 0xC0) (hds : ∀ d ∈ ds, d < 0x80)
    (hn : 3 ≤ ds.length) :
    decodeByte bus p c = ([Event.logDropByte c], Outcome.cont p) ∧
    (decodeLoop bus p0 (s :: ds)).1 =
        (if p0.msgSize > 0 then [Event.logDropMsg p0.msg0] else []) ++
          (ds.drop 2).map Event.logDropByte ∧
    ((decodeLoop bus p0 (s :: ds)).1.filter Event.isDropByte).length = ds.length - 2 ∧
    (decodeLoop bus p0 (s :: ds)).1.filter Event.isOperation = [] ∧
    (∃ q : Proc, (decodeLoop bus p0 (s :: ds)).2 = Outcome.cont q ∧ q.msgSize = 3 ∧
        q.msg0 = s) ∧
    (∀ s', s' &&& 0x80 ≠ 0 →
        (decodeLoop bus p0 ((s :: ds) ++ [s'])).1 =
          (decodeLoop bus p0 (s :: ds)).1 ++ [Event.logDropMsg s]) := by
  have hb := byte_facts s hs2
  have hs80 : s &&& 0x80 ≠ 0 := fun h => by
    have := hb.1.1 h
    omega
  have hf8 : (s &&& 0xf8) ≠ 0x90 := fun h => hrange (hb.2.1 h)
  have e1 := decodeByte_status bus p0 s hs80
  have e2 := decodeLoop_fill bus { p0 with msg0 := s, msgSize := 1 } ds rfl hf8 hc0
    (fun d hd => and_0x80_of_lt (hds d hd))
  have hmin : min (ds.length + 1) 3 = 3 := by omega
  have hrun : decodeLoop bus p0 (s :: ds) =
      ((if p0.msgSize > 0 then [Event.logDropMsg p0.msg0] else []) ++
          (ds.drop 2).map Event.logDropByte,
        Outcome.cont { p0 with msg0 := s, msg1 := ds.getD 0 p0.msg1,
                               msg2 := ds.getD 1 p0.msg2, msgSize := 3 }) := by
    rw [decodeLoop_cons_cont bus p0 _ s ds _ e1, e2, hmin]
  have hdrops : ∀ l : List Nat, (l.map Event.logDropByte).filter Event.isDropByte =
      l.map Event.logDropByte := by
    intro l
    apply List.filter_eq_self.mpr
    intro a ha
    simp only [List.mem_map] at ha
    obtain ⟨d, -, rfl⟩ := ha
    rfl
  have hnoop : ∀ l : List Nat, (l.map Event.logDropByte).filter Event.isOperation = [] := by
    intro l
    apply List.filter_eq_nil_iff.mpr
    intro a ha
    simp only [List.mem_map] at ha
    obtain ⟨d, -, rfl⟩ := ha
    simp [Event.isOperation]
  refine ⟨decodeByte_data3 bus p c hc hp, by rw [hrun], ?_, ?_, ⟨_, by rw [hrun], rfl, rfl⟩, ?_⟩
  · rw [hrun, List.filter_append, hdrops]
    by_cases h : p0.msgSize > 0 <;> simp [h, Event.isDropByte]
  · rw [hrun, List.filter_append, hnoop]
    by_cases h : p0.msgSize > 0 <;> simp [h, Event.isOperation]
  · intro s' hs'
    rw [decodeLoop_snoc_events, eventsFor_of_running bus p0 _ (s :: ds) s' (by rw [hrun]),
      decodeByte_status bus _ s' hs']
    simp

theorem C11_overflow_drop_witness :
    ({ msg0 := 0x80, msg1 := 1, msg2 := 2, msgSize := 3, i2cCalls := 0 } : Proc).msgSize = 3 ∧
    0x07 &&& 0x80 = 0 ∧ 0x80 ≤ 0xB0 ∧ 0xB0 < 256 ∧ ¬ (0x90 ≤ 0xB0 ∧ 0xB0 ≤ 0x97) ∧ 0xB0 ≠ 0xC0 ∧
    (∀ d ∈ [0x01, 0x02, 0x03, 0x04, 0x05], d < 0x80) ∧
    3 ≤ ([0x01, 0x02, 0x03, 0x04, 0x05] : List Nat).length ∧
    ((decodeLoop (fun _ : Nat => true) (Proc.empty 0 0 0 0)
        (0xB0 :: [0x01, 0x02, 0x03, 0x04, 0x05])).1.filter Event.isDropByte).length =
      ([0x01, 0x02, 0x03, 0x04, 0x05] : List Nat).length - 2 :=
  ⟨rfl, by decide, by decide, by decide, by decide, by decide, by decide, by decide,
    (C11_overflow_drop (fun _ => true)
      { msg0 := 0x80, msg1 := 1, msg2 := 2, msgSize := 3, i2cCalls := 0 } (Proc.empty 0 0 0 0)
      0x07 0xB0 [0x01, 0x02, 0x03, 0x04, 0x05] rfl (by decide) (by decide) (by decide)
      (by decide) (by decide) (by decide) (by decide)).2.2.1⟩

/-- C12, as the specification states it, fails: with every codec write
accepted, `initAudio` writes 10 frames, not 11. -/
theorem C12_eleven_writes_counterexample :
    ((initAudio true true (fun _ : Nat => true) (Proc.empty 0 0 0 0)).1.filter
        Event.isCodecWrite).length = 10 ∧
    ((initAudio true true (fun _ : Nat => true) (Proc.empty 0 0 0 0)).1.filter
        Event.isCodecWrite).length ≠ 11 := by
  decide

/-- C12 (amended).  Once the I2C device is open, when the codec accepts the
writes, `initAudio` issues exactly 10 codec register writes and returns: the
reset write to register 15 is commented out in the source. -/
theorem C12_initAudio_ten_writes (bus : Nat → Bool) (p : Proc)
    (hbus : ∀ k, k < 10 → bus (p.i2cCalls + k) = true) :
    ((initAudio true true bus p).1.filter Event.isCodecWrite).length = 10 ∧
    (codecWrites (initAudio true true bus p).1).length = 10 ∧
    (initAudio true true bus p).2 = Outcome.cont { p with i2cCalls := p.i2cCalls + 10 } := by
  rw [initAudio_accepted bus p hbus]
  exact ⟨rfl, rfl, rfl⟩

theorem C12_initAudio_ten_writes_witness :
    (∀ k, k < 10 → (fun _ : Nat => true) ((Proc.empty 0 0 0 0).i2cCalls + k) = true) ∧
    ((initAudio true true (fun _ : Nat => true) (Proc.empty 0 0 0 0)).1.filter
        Event.isCodecWrite).length = 10 :=
  ⟨fun _ _ => rfl,
    (C12_initAudio_ten_writes (fun _ => true) (Proc.empty 0 0 0 0) (fun _ _ => rfl)).1⟩

/-- C13, as the specification states it, fails: the pairs written by `initAudio`
are not the listed ones, because the register 2 entry is
`(1 << 8) | 0b1111001 = 0x179`, not `(1 << 8) | 0b0111001 = 0x139`. -/
theorem C13_volume_level_counterexample :
    codecWrites (initAudio true true (fun _ : Nat => true) (Proc.empty 0 0 0 0)).1 ≠
      [(6, 0x030), (0, 0x017), (1, 0x017), (2, (1 <<< 8) ||| 0b0111001), (4, 0x010), (5, 0x000),
        (7, 0x00A), (8, 0x000), (9, 0x001), (6, 0x020)] ∧
    (2, 0x179) ∈ codecWrites (initAudio true true (fun _ : Nat => true) (Proc.empty 0 0 0 0)).1 := by
  decide

/-- C13 (amended).  Once the I2C device is open, when the codec accepts the
writes, the frames written by `initAudio`, read as (register, 9-bit value)
pairs, are in order (6,0x030), (0,0x017), (1,0x017), (2,(1<<8)|0b1111001),
(4,0x010), (5,0x000), (7,0x00A), (8,0x000), (9,0x001), (6,0x020); each frame is
the one `setAudioReg` builds for its pair, and the register 2 entry is what the
volume operation sends for level `0b1111001` = 121 (logged as 0 dB). -/
theorem C13_initAudio_write_list (bus : Nat → Bool) (p : Proc)
    (hbus : ∀ k, k < 10 → bus (p.i2cCalls + k) = true) :
    codecWrites (initAudio true true bus p).1 =
      [(6, 0x030), (0, 0x017), (1, 0x017), (2, (1 <<< 8) ||| 0b1111001), (4, 0x010), (5, 0x000),
        (7, 0x00A), (8, 0x000), (9, 0x001), (6, 0x020)] ∧
    (initAudio true true bus p).1.filter Event.isCodecWrite =
      [(6, 0x030), (0, 0x017), (1, 0x017), (2, (1 <<< 8) ||| 0b1111001), (4, 0x010), (5, 0x000),
        (7, 0x00A), (8, 0x000), (9, 0x001), (6, 0x020)].map
        (fun rd => Event.i2cWrite (codecFrame rd.1 rd.2).1 (codecFrame rd.1 rd.2).2) ∧
    (setAudioVolume bus { p with i2cCalls := p.i2cCalls + 3 } 0b001111001).1 =
      [Event.logVolume 0, Event.i2cWrite 0x05 0b1111001] ∧
    codecWrites (setAudioVolume bus { p with i2cCalls := p.i2cCalls + 3 } 0b001111001).1 =
      [(2, (1 <<< 8) ||| 0b1111001)] := by
  have h3 : bus (p.i2cCalls + 3) = true := hbus 3 (by decide)
  have hvol := setAudioVolume_of_lt bus { p with i2cCalls := p.i2cCalls + 3 } 0b001111001
    (by decide)
  simp only [h3, if_true] at hvol
  rw [initAudio_accepted bus p hbus, hvol]
  exact ⟨rfl, rfl, rfl, rfl⟩

theorem C13_initAudio_write_list_witness :
    (∀ k, k < 10 → (fun _ : Nat => true) ((Proc.empty 0 0 0 0).i2cCalls + k) = true) ∧
    codecWrites (initAudio true true (fun _ : Nat => true) (Proc.empty 0 0 0 0)).1 =
      [(6, 0x030), (0, 0x017), (1, 0x017), (2, (1 <<< 8) ||| 0b1111001), (4, 0x010), (5, 0x000),
        (7, 0x00A), (8, 0x000), (9, 0x001), (6, 0x020)] :=
  ⟨fun _ _ => rfl,
    (C13_initAudio_write_list (fun _ => true) (Proc.empty 0 0 0 0) (fun _ _ => rfl)).1⟩

/-- C14 (a codec write failure is fatal).  In any run of `initAudio` followed by
the read loop, whatever the bus does: if the frame written after `pre` is
refused by the bus (it is write number `k`, counted from 0, where `k` is the
number of frames in `pre`), then only the error log line follows it (no codec
frame and no store into the register window) and the process exits with status
1.  In particular, if the first write of `initAudio` is refused, exactly one
frame is written. -/
theorem C14_codec_failure_is_fatal (openOk ioctlOk : Bool) (bus : Nat → Bool)
    (m0 m1 m2 : Nat) (chunks : List (List Nat)) (pre post : List Event) (b0 b1 : Nat)
    (hsplit : (initThenDecode openOk ioctlOk bus m0 m1 m2 chunks).1 =
      pre ++ Event.i2cWrite b0 b1 :: post)
    (hfail : bus (pre.filter Event.isCodecWrite).length = false) :
    post = [Event.errI2C] ∧
    post.filter Event.isOperation = [] ∧
    (initThenDecode openOk ioctlOk bus m0 m1 m2 chunks).2 = Outcome.exit 1 ∧
    (bus 0 = false →
      initAudio true true bus (Proc.empty m0 m1 m2 0) =
          ([Event.usleep 75000, Event.i2cWrite 12 48, Event.errI2C], Outcome.exit 1) ∧
        ((initThenDecode true true bus m0 m1 m2 chunks).1.filter
          Event.isCodecWrite).length = 1) := by
  have hfs := FailStop_initThenDecode openOk ioctlOk bus m0 m1 m2 chunks
  rw [hsplit] at hfs
  obtain ⟨hpost, hexit⟩ := FailStop_refused bus pre post b0 b1 0 _ hfs (by simpa using hfail)
  refine ⟨hpost, by rw [hpost]; rfl, hexit, fun h0 => ?_⟩
  have hinit : initAudio true true bus (Proc.empty m0 m1 m2 0) =
      ([Event.usleep 75000, Event.i2cWrite 12 48, Event.errI2C], Outcome.exit 1) := by
    simp [initAudio, runSteps, seq, Outcome.andThen, setAudioReg, Proc.empty, h0]
    decide
  refine ⟨hinit, ?_⟩
  simp only [initThenDecode, seq, hinit, Outcome.andThen]
  rfl

theorem C14_codec_failure_is_fatal_witness :
    (initThenDecode true true (fun k => k != 10) 0 0 0 [[0x90, 0x01], [0x02, 0xC0, 0x40, 0x91]]).1 =
      [Event.usleep 75000, Event.i2cWrite 12 48, Event.i2cWrite 0 23, Event.i2cWrite 2 23,
        Event.logVolume 0, Event.i2cWrite 5 121, Event.i2cWrite 8 16, Event.i2cWrite 10 0,
        Event.i2cWrite 14 10, Event.i2cWrite 16 0, Event.usleep 75000, Event.i2cWrite 18 1,
        Event.i2cWrite 12 32, Event.oplStore 1 2, Event.nanosleep, Event.logVolume (-57)] ++
        Event.i2cWrite 5 64 :: [Event.errI2C] ∧
    (fun k => k != 10)
      (([Event.usleep 75000, Event.i2cWrite 12 48, Event.i2cWrite 0 23, Event.i2cWrite 2 23,
        Event.logVolume 0, Event.i2cWrite 5 121, Event.i2cWrite 8 16, Event.i2cWrite 10 0,
        Event.i2cWrite 14 10, Event.i2cWrite 16 0, Event.usleep 75000, Event.i2cWrite 18 1,
        Event.i2cWrite 12 32, Event.oplStore 1 2, Event.nanosleep, Event.logVolume (-57)].filter
          Event.isCodecWrite).length) = false ∧
    (initThenDecode true true (fun k => k != 10) 0 0 0
        [[0x90, 0x01], [0x02, 0xC0, 0x40, 0x91]]).2 = Outcome.exit 1 :=
  ⟨by decide, by decide,
    (C14_codec_failure_is_fatal true true (fun k => k != 10) 0 0 0
      [[0x90, 0x01], [0x02, 0xC0, 0x40, 0x91]]
      [Event.usleep 75000, Event.i2cWrite 12 48, Event.i2cWrite 0 23, Event.i2cWrite 2 23,
        Event.logVolume 0, Event.i2cWrite 5 121, Event.i2cWrite 8 16, Event.i2cWrite 10 0,
        Event.i2cWrite 14 10, Event.i2cWrite 16 0, Event.usleep 75000, Event.i2cWrite 18 1,
        Event.i2cWrite 12 32, Event.oplStore 1 2, Event.nanosleep, Event.logVolume (-57)]
      [Event.errI2C] 5 64 (by decide) (by decide)).2.2.1⟩

/-- C16, as the specification states it, fails: the trace of `initAudio` starts
with the first pause, then writes register 6 = 0x030 and register 0 = 0x017 with
no pause between them. -/
theorem C16_first_pause_counterexample :
    (initAudio true true (fun _ : Nat => true) (Proc.empty 0 0 0 0)).1.take 3 =
      [Event.usleep 75000, Event.i2cWrite 12 48, Event.i2cWrite 0 23] ∧
    frameDecode 12 48 = (6, 0x030) ∧ frameDecode 0 23 = (0, 0x017) := by
  decide

/-- C16 (amended).  Once the I2C device is open, when the codec accepts the
writes, the trace of `initAudio` holds exactly two pauses of 75 ms: the first
comes before the first write (register 6 = 0x030), the second after the write to
register 8 and before the final two writes (register 9, then register 6). -/
theorem C16_initAudio_pauses (bus : Nat → Bool) (p : Proc)
    (hbus : ∀ k, k < 10 → bus (p.i2cCalls + k) = true) :
    (initAudio true true bus p).1 =
        [Event.usleep 75000] ++
          [Event.i2cWrite 12 48, Event.i2cWrite 0 23, Event.i2cWrite 2 23, Event.logVolume 0,
            Event.i2cWrite 5 121, Event.i2cWrite 8 16, Event.i2cWrite 10 0, Event.i2cWrite 14 10,
            Event.i2cWrite 16 0] ++
          [Event.usleep 75000] ++ [Event.i2cWrite 18 1, Event.i2cWrite 12 32] ∧
    codecWrites [Event.i2cWrite 12 48, Event.i2cWrite 0 23, Event.i2cWrite 2 23,
        Event.logVolume 0, Event.i2cWrite 5 121, Event.i2cWrite 8 16, Event.i2cWrite 10 0,
        Event.i2cWrite 14 10, Event.i2cWrite 16 0] =
      [(6, 0x030), (0, 0x017), (1, 0x017), (2, 0x179), (4, 0x010), (5, 0x000), (7, 0x00A),
        (8, 0x000)] ∧
    codecWrites [Event.i2cWrite 18 1, Event.i2cWrite 12 32] = [(9, 0x001), (6, 0x020)] ∧
    (initAudio true true bus p).1.filter Event.isPause =
      [Event.usleep 75000, Event.usleep 75000] := by
  rw [initAudio_accepted bus p hbus]
  exact ⟨rfl, rfl, rfl, rfl⟩

theorem C16_initAudio_pauses_witness :
    (∀ k, k < 10 → (fun _ : Nat => true) ((Proc.empty 0 0 0 0).i2cCalls + k) = true) ∧
    (initAudio true true (fun _ : Nat => true) (Proc.empty 0 0 0 0)).1.filter Event.isPause =
      [Event.usleep 75000, Event.usleep 75000] :=
  ⟨fun _ _ => rfl,
    (C16_initAudio_pauses (fun _ => true) (Proc.empty 0 0 0 0) (fun _ _ => rfl)).2.2.2⟩

/-- C17 (buffer bound).  The loop starts with `msgSize = 0`.  On any input it
never stores outside `msg[3]`; the state reached after any input has
`msgSize ≤ 3`, and for whatever byte `c` comes next the index used by
`msg[msgSize++] = c`, when that store is executed, is at most 2.  A store
outside the buffer would happen exactly when that index is 3 or more. -/
theorem C17_buffer_bound (bus : Nat → Bool) (xs : List Nat) (c m0 m1 m2 n : Nat) :
    (decodeLoop bus (Proc.empty m0 m1 m2 n) xs).2 ≠ Outcome.fault ∧
    (∀ q, (decodeLoop bus (Proc.empty m0 m1 m2 n) xs).2 = Outcome.cont q →
      q.msgSize ≤ 3 ∧ (∀ i, appendIndex q c = some i → i ≤ 2) ∧
        (decodeByte bus q c).2 ≠ Outcome.fault) ∧
    (∀ p : Proc, (decodeByte bus p c).2 = Outcome.fault ↔
      ∃ i, appendIndex p c = some i ∧ 3 ≤ i) := by
  obtain ⟨hnf, hinv⟩ := bufferBound_run bus xs _ (bufferBound_empty m0 m1 m2 n)
  refine ⟨hnf, fun q hq => ?_, fun p => ?_⟩
  · have hb := hinv q hq
    refine ⟨hb.1, fun i hi => ?_, (bufferBound_step bus q c hb).1⟩
    unfold appendIndex at hi
    by_cases hc : c &&& 0x80 = 0
    · simp only [hc, ne_eq, not_true_eq_false, if_false] at hi
      by_cases h3 : q.msgSize = 3
      · simp [h3] at hi
      · simp only [h3, if_false, Option.some.injEq] at hi
        have := hb.1
        omega
    · simp only [hc, ne_eq, not_false_eq_true, if_true] at hi
      simp at hi
      omega
  · unfold appendIndex
    by_cases hc : c &&& 0x80 = 0
    · have hcases : p.msgSize = 0 ∨ p.msgSize = 1 ∨ p.msgSize = 2 ∨ p.msgSize = 3 ∨
          3 < p.msgSize := by omega
      rcases hcases with h | h | h | h | h
      · simp [decodeByte_data0 bus p c hc h, hc, h]
      · rw [decodeByte_data1 bus p c hc h]
        by_cases h0 : p.msg0 = 0xc0 <;> by_cases hb : bus p.i2cCalls <;> simp [h0, hb, hc, h]
      · rw [decodeByte_data2 bus p c hc h]
        by_cases h0 : (p.msg0 &&& 0xf8) = 0x90 <;> simp [h0, hc, h]
      · simp [decodeByte_data3 bus p c hc h, hc, h]
      · have h3 : p.msgSize ≠ 3 := by omega
        simp only [decodeByte_data_fault bus p c hc h, hc, ne_eq, not_true_eq_false, if_false,
          h3, Option.some.injEq, true_iff]
        exact ⟨p.msgSize, rfl, Nat.le_of_lt h⟩
    · simp [decodeByte_status bus p c hc, hc]

/-- C18, as the specification states it, fails: after the status byte `0x80`
and two data bytes the buffer holds three bytes, and the next data byte takes
the 'dropped data byte' branch. -/
theorem C18_overflow_branch_counterexample :
    (decodeLoop (fun _ : Nat => true) (Proc.empty 0 0 0 0) [0x80, 0x01, 0x02, 0x03]).1 =
      [Event.logDropByte 0x03] ∧
    (decodeLoop (fun _ : Nat => true) (Proc.empty 0 0 0 0) [0x80, 0x01, 0x02]).2 =
      Outcome.cont { msg0 := 0x80, msg1 := 0x01, msg2 := 0x02, msgSize := 3, i2cCalls := 0 } := by
  decide

/-- C18 (amended).  The overflow branch is live, but only behind a first byte
that starts no register write.  The loop starts with `msgSize = 0` and reads
`pre`, then `c`.  A 'dropped data byte' diagnostic logged for `c` carries `c`,
which has its high bit clear, and the state before it has `msgSize = 3`; a
state reached with `msgSize = 3` has `(msg[0] & 0xf8) != 0x90`, so the branch is
never taken for a byte that follows a completed message; and it is taken: any
first byte `s` with `(s & 0xf8) != 0x90` other than `0xC0`, followed by three
data bytes, drops the third. -/
theorem C18_overflow_branch_live (bus : Nat → Bool) (pre : List Nat) (c m0 m1 m2 n : Nat) :
    (∀ d, Event.logDropByte d ∈ eventsFor bus (Proc.empty m0 m1 m2 n) pre c →
      d = c ∧ c &&& 0x80 = 0 ∧
        ∃ q, (decodeLoop bus (Proc.empty m0 m1 m2 n) pre).2 = Outcome.cont q ∧ q.msgSize = 3) ∧
    (∀ q, (decodeLoop bus (Proc.empty m0 m1 m2 n) pre).2 = Outcome.cont q → q.msgSize = 3 →
      (q.msg0 &&& 0xf8) ≠ 0x90) ∧
    (∀ s d1 d2 d3 : Nat, (s &&& 0xf8) ≠ 0x90 → s ≠ 0xC0 → d1 < 0x80 → d2 < 0x80 → d3 < 0x80 →
      (decodeLoop bus (Proc.empty m0 m1 m2 n) [s, d1, d2, d3]).1 = [Event.logDropByte d3]) := by
  refine ⟨fun d hmem => ?_, fun q hq h3 => ?_, fun s d1 d2 d3 hf8 hc0 hd1 hd2 hd3 => ?_⟩
  · cases h0 : (decodeLoop bus (Proc.empty m0 m1 m2 n) pre).2 with
    | cont q =>
      rw [eventsFor_of_running bus _ q pre c h0] at hmem
      obtain ⟨h1, h2, h3⟩ := logDropByte_origin bus q c d hmem
      exact ⟨h1, h2, q, rfl, h3⟩
    | exit code =>
      rw [eventsFor_of_stopped bus _ pre c (by simp [h0])] at hmem
      simp at hmem
    | fault =>
      rw [eventsFor_of_stopped bus _ pre c (by simp [h0])] at hmem
      simp at hmem
  · exact ((bufferBound_run bus pre _ (bufferBound_empty m0 m1 m2 n)).2 q hq).2 h3
  · have hfirst : ∃ q1 : Proc, q1.msgSize = 1 ∧ q1.msg0 = s ∧
        decodeByte bus (Proc.empty m0 m1 m2 n) s = ([], Outcome.cont q1) := by
      by_cases hs : s &&& 0x80 = 0
      · exact ⟨{ Proc.empty m0 m1 m2 n with msg0 := s, msgSize := 1 }, rfl, rfl,
          decodeByte_data0 bus _ s hs rfl⟩
      · refine ⟨{ Proc.empty m0 m1 m2 n with msg0 := s, msgSize := 1 }, rfl, rfl, ?_⟩
        rw [decodeByte_status bus _ s hs]
        rfl
    obtain ⟨q1, hsz, hm, hstep⟩ := hfirst
    have hfill := decodeLoop_fill bus q1 [d1, d2, d3] hsz (hm ▸ hf8) (hm ▸ hc0)
      (by
        intro d hd
        simp only [List.mem_cons, List.mem_singleton, List.not_mem_nil, or_false] at hd
        rcases hd with rfl | rfl | rfl
        · exact and_0x80_of_lt hd1
        · exact and_0x80_of_lt hd2
        · exact and_0x80_of_lt hd3)
    rw [decodeLoop_cons_cont bus _ q1 s _ _ hstep, hfill]
    rfl

/-- C19 (the three-byte carrier reaches the register space exactly once).
Every accepted message `[s, d1, d2]` (`s` in `0x90..0x97`, `d1, d2 < 0x80`)
stores the value `((s&4)<<5)|d2 < 256` at the address `((s&3)<<7)|d1 < 512`, and
every pair of an address below 512 and a value below 256 is stored by exactly
one accepted message. -/
theorem C19_register_map_bijective (bus : Nat → Bool) (m0 m1 m2 n : Nat) :
    (∀ s d1 d2 : Nat, 0x90 ≤ s → s ≤ 0x97 → d1 < 0x80 → d2 < 0x80 →
      (decodeLoop bus (Proc.empty m0 m1 m2 n) [s, d1, d2]).1 =
          [Event.oplStore (((s &&& 3) <<< 7) ||| d1) (((s &&& 4) <<< 5) ||| d2),
            Event.nanosleep] ∧
        ((s &&& 3) <<< 7) ||| d1 < 512 ∧ ((s &&& 4) <<< 5) ||| d2 < 256) ∧
    (∀ a v : Nat, a < 512 → v < 256 →
      ∃ s d1 d2 : Nat, (0x90 ≤ s ∧ s ≤ 0x97 ∧ d1 < 0x80 ∧ d2 < 0x80) ∧
        (decodeLoop bus (Proc.empty m0 m1 m2 n) [s, d1, d2]).1 =
          [Event.oplStore a v, Event.nanosleep] ∧
        ∀ s' d1' d2' : Nat, 0x90 ≤ s' → s' ≤ 0x97 → d1' < 0x80 → d2' < 0x80 →
          (decodeLoop bus (Proc.empty m0 m1 m2 n) [s', d1', d2']).1 =
            [Event.oplStore a v, Event.nanosleep] →
          s' = s ∧ d1' = d1 ∧ d2' = d2) := by
  have hrun : ∀ s d1 d2 : Nat, 0x90 ≤ s → s ≤ 0x97 → d1 < 0x80 → d2 < 0x80 →
      (decodeLoop bus (Proc.empty m0 m1 m2 n) [s, d1, d2]).1 =
        [Event.oplStore (((s &&& 3) <<< 7) ||| d1) (((s &&& 4) <<< 5) ||| d2),
          Event.nanosleep] := by
    intro s d1 d2 h1 h2 hd1 hd2
    have e := decodeLoop_regWrite bus (Proc.empty m0 m1 m2 n) rfl s d1 d2 h1 h2 hd1 hd2 []
    rw [List.append_nil] at e
    rw [e]
    rfl
  refine ⟨fun s d1 d2 h1 h2 hd1 hd2 =>
    ⟨hrun s d1 d2 h1 h2 hd1 hd2, regAddress_lt s d1 hd1, regValue_lt s d2 hd2⟩, ?_⟩
  intro a v ha hv
  have hs1 : 0x90 ≤ 144 + a / 128 + 4 * (v / 128) := by omega
  have hs2 : 144 + a / 128 + 4 * (v / 128) ≤ 0x97 := by omega
  have hd1 : a % 128 < 0x80 := by omega
  have hd2 : v % 128 < 0x80 := by omega
  obtain ⟨ea, ev⟩ := regPair_eq _ _ _ hs1 hs2 hd1 hd2
  refine ⟨144 + a / 128 + 4 * (v / 128), a % 128, v % 128, ⟨hs1, hs2, hd1, hd2⟩, ?_, ?_⟩
  · rw [hrun _ _ _ hs1 hs2 hd1 hd2, ea, ev]
    have h1 : 128 * ((144 + a / 128 + 4 * (v / 128)) % 4) + a % 128 = a := by omega
    have h2 : 128 * ((144 + a / 128 + 4 * (v / 128)) / 4 % 2) + v % 128 = v := by omega
    rw [h1, h2]
  · intro s' d1' d2' h1' h2' hd1' hd2' hrun'
    rw [hrun s' d1' d2' h1' h2' hd1' hd2'] at hrun'
    obtain ⟨ea', ev'⟩ := regPair_eq s' d1' d2' h1' h2' hd1' hd2'
    simp only [List.cons.injEq, Event.oplStore.injEq, and_true] at hrun'
    rw [ea', ev'] at hrun'
    obtain ⟨hA, hV⟩ := hrun'
    omega

/-- C20 (the codec frame packing round-trips).  `setAudioReg` writes the frame
`codecFrame reg data`.  For `reg` in `0..127` and `data` in `0..511` this frame
is `buf0 = ((reg << 1) | (data >> 8)) mod 256`, `buf1 = data mod 256`, and
`reg = buf0 >> 1`, `data = ((buf0 & 1) << 8) | buf1` are recovered from it, so
the packing is injective on that domain; a volume-set of level `v < 128` sends
the frame `{0x05, v}`. -/
theorem C20_codec_frame_roundtrip (bus : Nat → Bool) (p : Proc) :
    (∀ reg data : Nat,
      (setAudioReg bus p reg data).1 =
        Event.i2cWrite (codecFrame reg data).1 (codecFrame reg data).2 ::
          (if bus p.i2cCalls then [] else [Event.errI2C])) ∧
    (∀ reg data : Nat, reg < 128 → data < 512 →
      codecFrame reg data = (((reg <<< 1) ||| (data >>> 8)) % 256, data % 256) ∧
        frameDecode (codecFrame reg data).1 (codecFrame reg data).2 = (reg, data)) ∧
    (∀ reg data reg' data' : Nat, reg < 128 → data < 512 → reg' < 128 → data' < 512 →
      codecFrame reg data = codecFrame reg' data' → reg = reg' ∧ data = data') ∧
    (∀ v : Nat, v < 128 →
      (setAudioVolume bus p v).1 =
        Event.logVolume ((v : Int) - 121) :: Event.i2cWrite 0x05 v ::
          (if bus p.i2cCalls then [] else [Event.errI2C])) := by
  have hround : ∀ reg data : Nat, reg < 128 → data < 512 →
      frameDecode (codecFrame reg data).1 (codecFrame reg data).2 = (reg, data) := by
    intro reg data hr hd
    rw [codecFrame_eq reg data hr hd]
    show frameDecode (2 * reg + data / 256) (data % 256) = (reg, data)
    rw [frameDecode_eq reg (data / 256) (data % 256) (by omega) (by omega)]
    have h : 256 * (data / 256) + data % 256 = data := Nat.div_add_mod data 256
    rw [h]
  refine ⟨fun reg data => by rw [setAudioReg_events], fun reg data hr hd => ⟨?_, hround reg data hr hd⟩,
    fun reg data reg' data' hr hd hr' hd' heq => ?_, fun v hv => ?_⟩
  · have h1 : reg % 256 = reg := by omega
    have h2 : data % 65536 = data := by omega
    have h8 : data &&& 0xff = data % 256 := Nat.and_pow_two_sub_one_eq_mod data 8
    unfold codecFrame
    rw [h1, h2, shiftRight_8_of_lt data hd, h8]
  · have h1 := hround reg data hr hd
    have h2 := hround reg' data' hr' hd'
    rw [heq, h2] at h1
    simp only [Prod.mk.injEq] at h1
    exact ⟨h1.1.symm, h1.2.symm⟩
  · rw [setAudioVolume_of_lt bus p v hv]

end Opl3d
